import Mathlib

/-!
Verification development for the GUIDE repository's knowledge-store core:
`ObjectDict` (hierarchical location index, `src/gemini/object_dict.py`),
`ProcessGraph` (`src/gemini/process_graph.py`) and the tool-handler layer
(`src/gemini/preference_service.py`, `src/gemini/gemini.py`).

The Python code is shallowly embedded: the mutable nested dict becomes the
inductive `Node`, in-place mutation becomes explicit state passing, and
Python exceptions become the `Err` sum carried by `Except`.
-/

namespace Guide

/-- Python exception kinds raised by the location-index layer. -/
inductive Err where
  | valueError (msg : String)
  | keyError (msg : String)
  | typeError (msg : String)
deriving Repr, DecidableEq

/-- A node of the location tree: either a nested ordered mapping
(`dict` in the source, insertion-ordered) or a bucket (`list` of object
identifiers).  Mirrors `LocationValue = Union[LocationTree, List[str]]`. -/
inductive Node where
  | mapping (entries : List (String × Node))
  | bucket (items : List String)
deriving Repr

/-- The root of an `ObjectDict` (`self._data`, always a dict). -/
abbrev Tree := List (String × Node)

/-- A path argument as accepted by the public API: a single delimited
string or a pre-split sequence (`Sequence[str] | str`). -/
inductive PathArg where
  | str (s : String)
  | seq (l : List String)
deriving Repr, DecidableEq

/-- First-occurrence association-list lookup (Python `dict.__getitem__` /
`dict.get`; Python dicts cannot hold duplicate keys, so first-occurrence
semantics coincide). -/
def alistFind {α : Type} (k : String) : List (String × α) → Option α
  | [] => none
  | (k', v) :: rest => if k' = k then some v else alistFind k rest

/-- `dict.__setitem__`: replace the first binding of `k` in place, or
append a new binding at the end (insertion order preserved). -/
def alistSet {α : Type} (k : String) (v : α) : List (String × α) → List (String × α)
  | [] => [(k, v)]
  | (k', v') :: rest => if k' = k then (k, v) :: rest else (k', v') :: alistSet k v rest

/-- `dict.pop(k)`: drop the first binding of `k`. -/
def alistErase {α : Type} (k : String) : List (String × α) → List (String × α)
  | [] => []
  | (k', v') :: rest => if k' = k then rest else (k', v') :: alistErase k rest

/-- Emptiness test used by the pruning/cleanup loops:
`isinstance(child, MutableMapping) and not child` or
`isinstance(child, list) and not child`. -/
def Node.isEmptyNode : Node → Bool
  | .mapping [] => true
  | .bucket [] => true
  | _ => false

/-- `_normalize_path`: split a string on the separator, discarding empty
segments; leave a sequence as-is; raise `ValueError` when no segments
remain. -/
def normalizePath (sep : String) : PathArg → Except Err (List String)
  | .str s =>
    let parts := (s.splitOn sep).filter (fun seg => seg ≠ "")
    if parts = [] then .error (.valueError "path must contain at least one segment")
    else .ok parts
  | .seq l =>
    if l = [] then .error (.valueError "path must contain at least one segment")
    else .ok l

/-- `_walk`: follow the path through mappings; raise `KeyError` when a
segment is missing or an intermediate node is not a mapping. -/
def walk : Node → List String → Except Err Node
  | n, [] => .ok n
  | .mapping m, k :: rest =>
    match alistFind k m with
    | none => .error (.keyError "path does not exist")
    | some c => walk c rest
  | .bucket _, _ :: _ => .error (.keyError "path does not exist")

/-- `_walk` starting at the root dict. -/
def walkT (t : Tree) (p : List String) : Except Err Node :=
  walk (.mapping t) p

/-- `has_path`: `True` iff `_walk` succeeds; `KeyError` is caught, the
`ValueError` from normalization is not. -/
def hasPath (sep : String) (parg : PathArg) (t : Tree) : Except Err Bool :=
  match normalizePath sep parg with
  | .error e => .error e
  | .ok p =>
    match walkT t p with
    | .error (.keyError _) => .ok false
    | .error e => .error e
    | .ok _ => .ok true

/-- `get_path`: non-raising lookup with a default (modelled as
`Option Node`); the `ValueError` from normalization still propagates. -/
def getPath (sep : String) (parg : PathArg) (default : Option Node) (t : Tree) :
    Except Err (Option Node) :=
  match normalizePath sep parg with
  | .error e => .error e
  | .ok p =>
    match walkT t p with
    | .error (.keyError _) => .ok default
    | .error e => .error e
    | .ok n => .ok (some n)

/-- `_ensure_bucket` on a normalized path.  `f` is the in-place mutation
the caller performs on the returned bucket (the source returns an aliased
list and mutates it); the result carries the bucket's prior contents and
the tree with the bucket replaced by `f` of it.  With `create` the walk
materializes missing intermediates via `setdefault(key, {})` and a missing
terminal bucket as `[]`; without it, a missing segment raises `KeyError`.
A non-mapping intermediate or a non-bucket terminal raises `TypeError`
(the source messages interpolate the offending key/path; elided here). -/
def ensureBucketAux (create : Bool) (f : List String → List String) :
    Tree → List String → Except Err (List String × Tree)
  | _, [] => .error (.valueError "path must contain at least one segment")
  | m, [k] =>
    match alistFind k m with
    | none =>
      if create then .ok ([], alistSet k (.bucket (f [])) m)
      else .error (.keyError "bucket does not exist")
    | some (.bucket b) => .ok (b, alistSet k (.bucket (f b)) m)
    | some (.mapping _) => .error (.typeError "does not resolve to a list bucket")
  | m, k :: k2 :: rest =>
    match alistFind k m with
    | none =>
      if create then
        match ensureBucketAux create f [] (k2 :: rest) with
        | .ok (b, sub) => .ok (b, alistSet k (.mapping sub) m)
        | .error e => .error e
      else .error (.keyError "path does not exist")
    | some (.mapping sub) =>
      match ensureBucketAux create f sub (k2 :: rest) with
      | .ok (b, sub') => .ok (b, alistSet k (.mapping sub') m)
      | .error e => .error e
    | some (.bucket _) =>
      .error (.typeError
        (if (k2 :: rest).length = 1 then "Bucket parent must be a mapping"
         else "Cannot descend into non-mapping node"))

/-- The bucket mutation performed by `add_object`: append unless the name
is already present and duplicates are disallowed. -/
def addMut (name : String) (allowDup : Bool) (b : List String) : List String :=
  if ¬allowDup ∧ name ∈ b then b else b ++ [name]

/-- `add_object`: ensure the bucket (creating intermediates), append the
name unless it is a disallowed duplicate; the boolean reports whether an
insertion happened. -/
def addObject (sep : String) (parg : PathArg) (name : String) (allowDup : Bool)
    (t : Tree) : Except Err (Bool × Tree) :=
  match normalizePath sep parg with
  | .error e => .error e
  | .ok p =>
    match ensureBucketAux true (addMut name allowDup) t p with
    | .error e => .error e
    | .ok (b, t') =>
      if ¬allowDup ∧ name ∈ b then .ok (false, t') else .ok (true, t')

/-- The fold of `extend_objects` over the names, tracking the growing
bucket and the insertion count. -/
def extendFold (allowDup : Bool) (b0 : List String) (names : List String) :
    List String × Nat :=
  names.foldl
    (fun acc n => if ¬allowDup ∧ n ∈ acc.1 then acc else (acc.1 ++ [n], acc.2 + 1))
    (b0, 0)

/-- `extend_objects`: ensure the bucket, then add each name with
`add_object` semantics, returning the number of actual insertions. -/
def extendObjects (sep : String) (parg : PathArg) (names : List String)
    (allowDup : Bool) (t : Tree) : Except Err (Nat × Tree) :=
  match normalizePath sep parg with
  | .error e => .error e
  | .ok p =>
    match ensureBucketAux true (fun b => (extendFold allowDup b names).1) t p with
    | .error e => .error e
    | .ok (b, t') => .ok ((extendFold allowDup b names).2, t')

/-- `_prune_empty_branch` descent: `none` models the early `return`
(walk failed, no mutation anywhere); at the leaf an empty bucket is
popped, and each ancestor whose child became an empty mapping or bucket
is popped in turn (a non-empty child stops the upward walk, which the
recursive form realizes because a kept child leaves its parent
non-empty). -/
def pruneAux : Tree → List String → Option Tree
  | m, [] => some m
  | m, [k] =>
    some (match alistFind k m with
          | some (.bucket []) => alistErase k m
          | _ => m)
  | m, k :: k2 :: rest =>
    match alistFind k m with
    | none => none
    | some (.bucket _) => none
    | some (.mapping sub) =>
      match pruneAux sub (k2 :: rest) with
      | none => none
      | some sub' =>
        some (if (Node.mapping sub').isEmptyNode then alistErase k m
              else alistSet k (.mapping sub') m)

/-- `_prune_empty_branch` (an aborted walk leaves the tree unchanged). -/
def prune (t : Tree) (p : List String) : Tree :=
  (pruneAux t p).getD t

mutual
/-- `_iter_objects` / `iter_object_paths`: depth-first over mapping
entries in insertion order, yielding each bucket item with the path of
its bucket. -/
def iterNode : Node → List String → List (String × List String)
  | .bucket items, p => items.map (fun obj => (obj, p))
  | .mapping m, p => iterEntries m p
def iterEntries : List (String × Node) → List String → List (String × List String)
  | [], _ => []
  | (k, child) :: rest, p => iterNode child (p ++ [k]) ++ iterEntries rest p
end

/-- `find_object`: the first traversal hit for the name, or `None`. -/
def findObject (name : String) (t : Tree) : Option (List String) :=
  ((iterNode (.mapping t) []).find? (fun pr => pr.1 = name)).map (fun pr => pr.2)

/-- `remove_object`: with a path, look the bucket up without creating
(`KeyError` is caught and yields `False`; the failed `list.remove` —
modelled by the membership test — also yields `False`, in both cases
without mutation), then prune; without a path, remove the first traversal
occurrence and prune its branch. -/
def removeObject (sep : String) (name : String) (pathOpt : Option PathArg)
    (t : Tree) : Except Err (Bool × Tree) :=
  match pathOpt with
  | some parg =>
    match normalizePath sep parg with
    | .error e => .error e
    | .ok p =>
      match ensureBucketAux false (fun b => b.erase name) t p with
      | .error (.keyError _) => .ok (false, t)
      | .error e => .error e
      | .ok (b, t1) =>
        if name ∈ b then .ok (true, prune t1 p) else .ok (false, t)
  | none =>
    match findObject name t with
    | none => .ok (false, t)
    | some p =>
      match ensureBucketAux false (fun b => b.erase name) t p with
      | .error e => .error e
      | .ok (_, t1) => .ok (true, prune t1 p)

/-- `move_object`: `remove_object` then `add_object`; a failed removal
short-circuits to `False`, and the boolean result of the addition is
discarded. -/
def moveObject (sep : String) (name : String) (newPath : PathArg)
    (oldPath : Option PathArg) (allowDup : Bool) (t : Tree) :
    Except Err (Bool × Tree) :=
  match removeObject sep name oldPath t with
  | .error e => .error e
  | .ok (false, t1) => .ok (false, t1)
  | .ok (true, t1) =>
    match addObject sep newPath name allowDup t1 with
    | .error e => .error e
    | .ok (_, t2) => .ok (true, t2)

/-- `delete_path` descent-and-cleanup: `none` models `return False`
(missing segment, non-mapping intermediate, or missing terminal key);
otherwise the terminal binding is popped and each ancestor left empty is
popped in turn. -/
def deleteAux : Tree → List String → Option Tree
  | _, [] => none
  | m, [k] =>
    match alistFind k m with
    | some _ => some (alistErase k m)
    | none => none
  | m, k :: k2 :: rest =>
    match alistFind k m with
    | none => none
    | some (.bucket _) => none
    | some (.mapping sub) =>
      match deleteAux sub (k2 :: rest) with
      | none => none
      | some sub' =>
        some (if sub'.isEmpty then alistErase k m else alistSet k (.mapping sub') m)

/-- `delete_path`: normalize (`ValueError` propagates), then delete with
cleanup of empty parents. -/
def deletePath (sep : String) (parg : PathArg) (t : Tree) :
    Except Err (Bool × Tree) :=
  match normalizePath sep parg with
  | .error e => .error e
  | .ok p =>
    match deleteAux t p with
    | none => .ok (false, t)
    | some t' => .ok (true, t')

mutual
/-- Number of stored occurrences of an identifier below a node
(observation used by theorem statements). -/
def cntNode (m : String) : Node → Nat
  | .bucket items => items.count m
  | .mapping es => cntEntries m es
def cntEntries (m : String) : List (String × Node) → Nat
  | [] => 0
  | (_, v) :: rest => cntNode m v + cntEntries m rest
end

mutual
/-- Well-formedness every tree reachable from Python satisfies: dict keys
are unique at every level (duplicate keys are unrepresentable in a
Python dict). -/
def nodeWF : Node → Bool
  | .bucket _ => true
  | .mapping m => treeWF m
def treeWF : List (String × Node) → Bool
  | [] => true
  | (k, v) :: rest =>
    !(rest.any (fun kv => kv.1 = k)) && nodeWF v && treeWF rest
end

/-! ## ProcessGraph (`src/gemini/process_graph.py`)

The adjacency `Dict[str, Set[str]]` becomes an insertion-ordered
association list from step name to a duplicate-free successor list. -/

/-- Adjacency of a `ProcessGraph`. -/
abbrev Graph := List (String × List String)

/-- `set.add`: insert unless present (list position is irrelevant to the
set semantics; new elements go at the end). -/
def insertS (x : String) (s : List String) : List String :=
  if x ∈ s then s else s ++ [x]

/-- `set.update`: add every element of `adds` to `base`. -/
def unionS (base adds : List String) : List String :=
  adds.foldl (fun acc x => insertS x acc) base

/-- `add_step`: create an empty successor set unless the step exists. -/
def addStep (g : Graph) (s : String) : Graph :=
  if (alistFind s g).isSome then g else g ++ [(s, [])]

/-- `remove_step`: pop the step and discard it from every successor set. -/
def removeStep (g : Graph) (s : String) : Graph :=
  if (alistFind s g).isSome then
    (alistErase s g).map (fun kv => (kv.1, kv.2.erase s))
  else g

/-- `update_step`: no-op when `old = new` or `old` is absent; otherwise
ensure `new`, move `old`'s successors onto `new` minus `new` itself, and
re-point incoming edges.  The source guard `if new_step != neighbors:`
compares the string `new_step` with the *set* `neighbors`, which is never
equal in Python, so the guard is always true and `new` is added to every
successor set that contained `old` — including `new`'s own. -/
def updateStep (g : Graph) (old new : String) : Graph :=
  if old = new ∨ (alistFind old g).isNone then g
  else
    let g1 := addStep g new
    let succ := (alistFind old g1).getD []
    let g2 := alistErase old g1
    let g3 := alistSet new
      (unionS ((alistFind new g2).getD []) (succ.filter (fun x => x ≠ new))) g2
    g3.map (fun kv =>
      if old ∈ kv.2 then (kv.1, insertS new (kv.2.erase old)) else kv)

/-- `add_transition`: ensure both endpoints, add the directed edge. -/
def addTransition (g : Graph) (start stop : String) : Graph :=
  let g1 := addStep g start
  let g2 := addStep g1 stop
  alistSet start (insertS stop ((alistFind start g2).getD [])) g2

/-- `remove_transition`: discard the edge when the start step exists. -/
def removeTransition (g : Graph) (start stop : String) : Graph :=
  match alistFind start g with
  | none => g
  | some ns => alistSet start (ns.erase stop) g

/-- The directed-edge relation of an adjacency (observation used by
theorem statements). -/
def edgeG (g : Graph) (a b : String) : Prop :=
  ∃ ns, alistFind a g = some ns ∧ b ∈ ns

instance (g : Graph) (a b : String) : Decidable (edgeG g a b) := by
  unfold edgeG
  exact
    match alistFind a g with
    | none => .isFalse (by simp)
    | some ns => decidable_of_iff (b ∈ ns) (by simp)

/-- Well-formedness every graph reachable from Python satisfies: step
keys are unique and successor lists are duplicate-free (dict keys and set
elements cannot repeat). -/
def GraphWF (g : Graph) : Prop :=
  (g.map Prod.fst).Nodup ∧ ∀ kv ∈ g, List.Nodup kv.2

instance (g : Graph) : Decidable (GraphWF g) := by
  unfold GraphWF; infer_instance

/-! ## Tool handlers (`src/gemini/preference_service.py`) and the
orchestrator's execution wrapper (`src/gemini/gemini.py`) -/

/-- The uniform tool-response envelope, `{status: success, ...}` or
`{status: error, message}` (success payloads are not claim-relevant and
are elided). -/
inductive Envelope where
  | success
  | error (message : String)
deriving Repr, DecidableEq

/-- The message carried by a Python exception. -/
def errMessage : Err → String
  | .valueError m => m
  | .keyError m => m
  | .typeError m => m

/-- `tool_add_object`: delegates to `add_object` with no try/except of
its own — a `False` result becomes an error envelope, but any exception
from the index layer propagates past the handler. -/
def toolAddObject (t : Tree) (path : List String) (name : String)
    (allowDup : Bool) : Except Err (Envelope × Tree) :=
  match addObject "/" (.seq path) name allowDup t with
  | .error e => .error e
  | .ok (false, t') => .ok (.error "already exists", t')
  | .ok (true, t') => .ok (.success, t')

/-- The exception handling of `_execute_tool_call` in `gemini.py`: the
handler's result is returned as-is, and any exception (`TypeError` or the
blanket `except Exception`) is converted into an error envelope.  A
handler that raised performed no mutation (`_ensure_bucket` creates
intermediates only below keys that were missing, so any `TypeError` fires
before the first write), hence the store argument `t` is returned
unchanged. -/
def executeToolCall (r : Except Err (Envelope × Tree)) (t : Tree) :
    Envelope × Tree :=
  match r with
  | .ok res => res
  | .error e => (.error (errMessage e), t)

/-! ## Association-list lemmas -/

theorem alistFind_eq_none {α : Type} {k : String} {m : List (String × α)}
    (h : k ∉ m.map Prod.fst) : alistFind k m = none := by
  induction m with
  | nil => rfl
  | cons hd tl ih =>
    obtain ⟨k0, v0⟩ := hd
    simp only [List.map_cons, List.mem_cons, not_or] at h
    simp only [alistFind, if_neg (fun hh : k0 = k => h.1 hh.symm)]
    exact ih h.2

theorem alistFind_setKey_self {α : Type} (k : String) (v : α)
    (m : List (String × α)) : alistFind k (alistSet k v m) = some v := by
  induction m with
  | nil => simp [alistSet, alistFind]
  | cons hd tl ih =>
    obtain ⟨k0, v0⟩ := hd
    by_cases h : k0 = k
    · simp [alistSet, alistFind, h]
    · simp only [alistSet, if_neg h, alistFind, if_neg h]
      exact ih

theorem alistFind_setKey_ne {α : Type} {k k' : String} (v : α)
    (m : List (String × α)) (h : k' ≠ k) :
    alistFind k' (alistSet k v m) = alistFind k' m := by
  induction m with
  | nil => simp [alistSet, alistFind, Ne.symm h]
  | cons hd tl ih =>
    obtain ⟨k0, v0⟩ := hd
    by_cases hk : k0 = k
    · subst hk
      simp [alistSet, alistFind, Ne.symm h]
    · by_cases hk' : k0 = k'
      · simp [alistSet, alistFind, hk, hk', h]
      · simp [alistSet, alistFind, hk, hk', ih]

theorem alistSet_self {α : Type} {k : String} {v : α}
    {m : List (String × α)} (h : alistFind k m = some v) :
    alistSet k v m = m := by
  induction m with
  | nil => simp [alistFind] at h
  | cons hd tl ih =>
    obtain ⟨k0, v0⟩ := hd
    by_cases hk : k0 = k
    · subst hk
      simp [alistFind] at h
      simp [alistSet, h]
    · simp only [alistFind, if_neg hk] at h
      simp only [alistSet, if_neg hk]
      rw [ih h]

theorem alistSet_keys_eq {α : Type} (k : String) (v : α)
    (m : List (String × α)) :
    (alistSet k v m).map Prod.fst =
      if k ∈ m.map Prod.fst then m.map Prod.fst else m.map Prod.fst ++ [k] := by
  induction m with
  | nil => simp [alistSet]
  | cons hd tl ih =>
    obtain ⟨k0, v0⟩ := hd
    by_cases hk : k0 = k
    · subst hk
      simp [alistSet]
    · simp only [alistSet, if_neg hk, List.map_cons, ih, List.mem_cons]
      by_cases hm : k ∈ tl.map Prod.fst
      · simp [hm, Ne.symm hk]
      · simp [hm, Ne.symm hk]

theorem alistSet_keys_nodup {α : Type} (k : String) (v : α)
    {m : List (String × α)} (h : (m.map Prod.fst).Nodup) :
    ((alistSet k v m).map Prod.fst).Nodup := by
  rw [alistSet_keys_eq]
  by_cases hm : k ∈ m.map Prod.fst
  · simpa [hm] using h
  · simp only [hm, if_neg]
    simp [List.nodup_append, h, hm]

theorem alistErase_sublist {α : Type} (k : String) (m : List (String × α)) :
    List.Sublist (alistErase k m) m := by
  induction m with
  | nil => simp [alistErase]
  | cons hd tl ih =>
    obtain ⟨k0, v0⟩ := hd
    by_cases hk : k0 = k
    · simp only [alistErase, if_pos hk]
      exact List.sublist_cons_self (k0, v0) tl
    · simp only [alistErase, if_neg hk]
      exact List.Sublist.cons₂ (k0, v0) ih

theorem alistErase_keys_nodup {α : Type} (k : String)
    {m : List (String × α)} (h : (m.map Prod.fst).Nodup) :
    ((alistErase k m).map Prod.fst).Nodup :=
  List.Nodup.sublist (List.Sublist.map Prod.fst (alistErase_sublist k m)) h

theorem alistFind_eraseKey_self {α : Type} {k : String}
    {m : List (String × α)} (h : (m.map Prod.fst).Nodup) :
    alistFind k (alistErase k m) = none := by
  induction m with
  | nil => rfl
  | cons hd tl ih =>
    obtain ⟨k0, v0⟩ := hd
    simp only [List.map_cons, List.nodup_cons] at h
    by_cases hk : k0 = k
    · subst hk
      simp only [alistErase, if_pos rfl]
      exact alistFind_eq_none h.1
    · simp only [alistErase, if_neg hk, alistFind, if_neg hk]
      exact ih h.2

theorem alistFind_eraseKey_ne {α : Type} {k k' : String}
    (m : List (String × α)) (h : k' ≠ k) :
    alistFind k' (alistErase k m) = alistFind k' m := by
  induction m with
  | nil => rfl
  | cons hd tl ih =>
    obtain ⟨k0, v0⟩ := hd
    by_cases hk : k0 = k
    · subst hk
      simp [alistErase, alistFind, Ne.symm h]
    · by_cases hk' : k0 = k'
      · simp [alistErase, alistFind, hk, hk', h]
      · simp [alistErase, alistFind, hk, hk', ih]

/-! ## Counting lemmas -/

theorem cntEntries_setKey_some {k : String} {es : Tree} {w : Node}
    (h : alistFind k es = some w) (v : Node) (m : String) :
    cntEntries m (alistSet k v es) + cntNode m w =
      cntEntries m es + cntNode m v := by
  induction es with
  | nil => simp [alistFind] at h
  | cons hd tl ih =>
    obtain ⟨k0, v0⟩ := hd
    by_cases hk : k0 = k
    · subst hk
      simp [alistFind] at h
      subst h
      simp [alistSet, cntEntries]
      omega
    · simp only [alistFind, if_neg hk] at h
      simp only [alistSet, if_neg hk, cntEntries]
      have := ih h
      omega

theorem cntEntries_setKey_none {k : String} {es : Tree}
    (h : alistFind k es = none) (v : Node) (m : String) :
    cntEntries m (alistSet k v es) = cntEntries m es + cntNode m v := by
  induction es with
  | nil => simp [alistSet, cntEntries, cntNode]
  | cons hd tl ih =>
    obtain ⟨k0, v0⟩ := hd
    by_cases hk : k0 = k
    · simp [alistFind, hk] at h
    · simp only [alistFind, if_neg hk] at h
      simp only [alistSet, if_neg hk, cntEntries]
      have := ih h
      omega

theorem cntEntries_eraseKey {k : String} {es : Tree} {w : Node}
    (h : alistFind k es = some w) (m : String) :
    cntEntries m (alistErase k es) + cntNode m w = cntEntries m es := by
  induction es with
  | nil => simp [alistFind] at h
  | cons hd tl ih =>
    obtain ⟨k0, v0⟩ := hd
    by_cases hk : k0 = k
    · subst hk
      simp [alistFind] at h
      subst h
      simp [alistErase, cntEntries]
      omega
    · simp only [alistFind, if_neg hk] at h
      simp only [alistErase, if_neg hk, cntEntries]
      have := ih h
      omega

/-! ## Well-formedness lemmas -/

theorem treeWF_cons {k : String} {v : Node} {rest : Tree} :
    treeWF ((k, v) :: rest) = true ↔
      (∀ kv ∈ rest, kv.1 ≠ k) ∧ nodeWF v = true ∧ treeWF rest = true := by
  simp [treeWF, List.any_eq_true, and_assoc]

theorem treeWF_keys {m : Tree} (h : treeWF m = true) :
    (m.map Prod.fst).Nodup := by
  induction m with
  | nil => simp
  | cons hd tl ih =>
    obtain ⟨k0, v0⟩ := hd
    rw [treeWF_cons] at h
    simp only [List.map_cons, List.nodup_cons]
    exact ⟨fun hm => by
      obtain ⟨kv, hkv, hfst⟩ := List.mem_map.mp hm
      exact h.1 kv hkv hfst, ih h.2.2⟩

theorem treeWF_find {m : Tree} {k : String} {v : Node}
    (h : treeWF m = true) (hf : alistFind k m = some v) : nodeWF v = true := by
  induction m with
  | nil => simp [alistFind] at hf
  | cons hd tl ih =>
    obtain ⟨k0, v0⟩ := hd
    rw [treeWF_cons] at h
    by_cases hk : k0 = k
    · simp only [alistFind, if_pos hk, Option.some.injEq] at hf
      subst hf
      exact h.2.1
    · simp only [alistFind, if_neg hk] at hf
      exact ih h.2.2 hf

theorem treeWF_setKey {m : Tree} {k : String} {v : Node}
    (h : treeWF m = true) (hv : nodeWF v = true) :
    treeWF (alistSet k v m) = true := by
  induction m with
  | nil => simp [alistSet, treeWF, hv]
  | cons hd tl ih =>
    obtain ⟨k0, v0⟩ := hd
    rw [treeWF_cons] at h
    by_cases hk : k0 = k
    · subst hk
      have hset : alistSet k0 v ((k0, v0) :: tl) = (k0, v) :: tl := by
        simp [alistSet]
      rw [hset, treeWF_cons]
      exact ⟨h.1, hv, h.2.2⟩
    · simp only [alistSet, if_neg hk]
      rw [treeWF_cons]
      refine ⟨fun kv hkv => ?_, h.2.1, ih h.2.2⟩
      have hkey : kv.1 ∈ (alistSet k v tl).map Prod.fst :=
        List.mem_map_of_mem Prod.fst hkv
      rw [alistSet_keys_eq] at hkey
      by_cases hm : k ∈ tl.map Prod.fst
      · rw [if_pos hm] at hkey
        obtain ⟨kv', hkv', hfst⟩ := List.mem_map.mp hkey
        intro hc
        exact h.1 kv' hkv' (hfst.symm ▸ hc)
      · rw [if_neg hm] at hkey
        rcases List.mem_append.mp hkey with hkey | hkey
        · obtain ⟨kv', hkv', hfst⟩ := List.mem_map.mp hkey
          intro hc
          exact h.1 kv' hkv' (hfst.symm ▸ hc)
        · simp only [List.mem_singleton] at hkey
          intro hc
          exact hk (hc.symm.trans hkey)

theorem treeWF_eraseKey {m : Tree} (k : String) (h : treeWF m = true) :
    treeWF (alistErase k m) = true := by
  induction m with
  | nil => simpa [alistErase] using h
  | cons hd tl ih =>
    obtain ⟨k0, v0⟩ := hd
    rw [treeWF_cons] at h
    by_cases hk : k0 = k
    · subst hk
      simpa [alistErase] using h.2.2
    · simp only [alistErase, if_neg hk]
      rw [treeWF_cons]
      refine ⟨fun kv hkv => ?_, h.2.1, ih h.2.2⟩
      exact h.1 kv (List.Sublist.mem hkv (alistErase_sublist k tl))

/-! ## `_ensure_bucket` lemmas -/

theorem ensure_false_walk {f : List String → List String} {t : Tree}
    {p : List String} {b : List String} {t1 : Tree}
    (h : ensureBucketAux false f t p = .ok (b, t1)) :
    walkT t p = .ok (.bucket b) := by
  induction p generalizing t t1 with
  | nil => simp [ensureBucketAux] at h
  | cons k rest ih =>
    cases rest with
    | nil =>
      simp only [ensureBucketAux] at h
      split at h
      · simp at h
      · rename_i bb heq
        simp only [Except.ok.injEq, Prod.mk.injEq] at h
        obtain ⟨hb, -⟩ := h
        subst hb
        simp [walkT, walk, heq]
      · simp at h
    | cons k2 rest2 =>
      simp only [ensureBucketAux] at h
      split at h
      · simp at h
      · rename_i sub heq
        split at h
        · rename_i bb sub2 he
          simp only [Except.ok.injEq, Prod.mk.injEq] at h
          obtain ⟨hb, -⟩ := h
          subst hb
          have := ih he
          simpa [walkT, walk, heq] using this
        · simp at h
      · simp at h

theorem ensure_walk_after {create : Bool} {f : List String → List String}
    {t : Tree} {p : List String} {b : List String} {t1 : Tree}
    (h : ensureBucketAux create f t p = .ok (b, t1)) :
    walkT t1 p = .ok (.bucket (f b)) := by
  induction p generalizing t t1 with
  | nil => simp [ensureBucketAux] at h
  | cons k rest ih =>
    cases rest with
    | nil =>
      simp only [ensureBucketAux] at h
      split at h
      · rename_i heq
        split at h
        · simp only [Except.ok.injEq, Prod.mk.injEq] at h
          obtain ⟨hb, ht⟩ := h
          subst hb; subst ht
          simp [walkT, walk, alistFind_setKey_self]
        · simp at h
      · rename_i bb heq
        simp only [Except.ok.injEq, Prod.mk.injEq] at h
        obtain ⟨hb, ht⟩ := h
        subst hb; subst ht
        simp [walkT, walk, alistFind_setKey_self]
      · simp at h
    | cons k2 rest2 =>
      simp only [ensureBucketAux] at h
      split at h
      · rename_i heq
        split at h
        · split at h
          · rename_i bb sub2 he
            simp only [Except.ok.injEq, Prod.mk.injEq] at h
            obtain ⟨hb, ht⟩ := h
            subst hb; subst ht
            have := ih he
            simpa [walkT, walk, alistFind_setKey_self] using this
          · simp at h
        · simp at h
      · rename_i sub heq
        split at h
        · rename_i bb sub2 he
          simp only [Except.ok.injEq, Prod.mk.injEq] at h
          obtain ⟨hb, ht⟩ := h
          subst hb; subst ht
          have := ih he
          simpa [walkT, walk, alistFind_setKey_self] using this
        · simp at h
      · simp at h

theorem walk_ensure {create : Bool} {f : List String → List String} {t : Tree}
    {p : List String} {b : List String}
    (h : walkT t p = .ok (.bucket b)) :
    ∃ t1, ensureBucketAux create f t p = .ok (b, t1) := by
  induction p generalizing t with
  | nil =>
    simp only [walkT, walk, Except.ok.injEq] at h
    exact absurd h (by simp)
  | cons k rest ih =>
    simp only [walkT, walk] at h
    cases hf : alistFind k t with
    | none => rw [hf] at h; simp at h
    | some n =>
      rw [hf] at h
      simp only at h
      cases rest with
      | nil =>
        cases n with
        | mapping m => simp [walk] at h
        | bucket bb =>
          simp only [walk, Except.ok.injEq, Node.bucket.injEq] at h
          subst h
          exact ⟨alistSet k (.bucket (f bb)) t, by simp [ensureBucketAux, hf]⟩
      | cons k2 rest2 =>
        cases n with
        | bucket bb => simp [walk] at h
        | mapping sub =>
          have hsub : walkT sub (k2 :: rest2) = .ok (.bucket b) := by
            simpa [walkT] using h
          obtain ⟨t1, ht1⟩ := ih hsub
          exact ⟨alistSet k (.mapping t1) t, by simp [ensureBucketAux, hf, ht1]⟩

theorem ensure_nil_bucket {create : Bool} {f : List String → List String}
    {p : List String} {b : List String} {s : Tree}
    (h : ensureBucketAux create f [] p = .ok (b, s)) : b = [] := by
  induction p generalizing b s with
  | nil => simp [ensureBucketAux] at h
  | cons k rest ih =>
    cases rest with
    | nil =>
      simp only [ensureBucketAux, alistFind] at h
      split at h
      · simp only [Except.ok.injEq, Prod.mk.injEq] at h
        exact h.1.symm
      · simp at h
    | cons k2 rest2 =>
      simp only [ensureBucketAux, alistFind] at h
      split at h
      · split at h
        · rename_i bb sub he
          simp only [Except.ok.injEq, Prod.mk.injEq] at h
          exact h.1 ▸ ih he
        · simp at h
      · simp at h

theorem ensure_id {create : Bool} {f : List String → List String} {t : Tree}
    {p : List String} {b : List String} {t1 : Tree}
    (h : ensureBucketAux create f t p = .ok (b, t1)) (hfb : f b = b)
    (hb : b ≠ []) : t1 = t := by
  induction p generalizing t t1 with
  | nil => simp [ensureBucketAux] at h
  | cons k rest ih =>
    cases rest with
    | nil =>
      simp only [ensureBucketAux] at h
      split at h
      · rename_i heq
        split at h
        · simp only [Except.ok.injEq, Prod.mk.injEq] at h
          exact absurd h.1.symm hb
        · simp at h
      · rename_i bb heq
        simp only [Except.ok.injEq, Prod.mk.injEq] at h
        obtain ⟨h1, h2⟩ := h
        subst h1
        rw [hfb] at h2
        rw [← h2]
        exact alistSet_self heq
      · simp at h
    | cons k2 rest2 =>
      simp only [ensureBucketAux] at h
      split at h
      · rename_i heq
        split at h
        · split at h
          · rename_i bb sub he
            simp only [Except.ok.injEq, Prod.mk.injEq] at h
            obtain ⟨h1, -⟩ := h
            subst h1
            exact absurd (ensure_nil_bucket he) hb
          · simp at h
        · simp at h
      · rename_i sub heq
        split at h
        · rename_i bb sub2 he
          simp only [Except.ok.injEq, Prod.mk.injEq] at h
          obtain ⟨h1, h2⟩ := h
          subst h1
          have hsub := ih he
          rw [← h2, hsub]
          exact alistSet_self heq
        · simp at h
      · simp at h

theorem cnt_find_le {k : String} {t : Tree} {w : Node}
    (h : alistFind k t = some w) (m : String) :
    cntNode m w ≤ cntEntries m t := by
  induction t with
  | nil => simp [alistFind] at h
  | cons hd tl ih =>
    obtain ⟨k0, v0⟩ := hd
    by_cases hk : k0 = k
    · subst hk
      simp [alistFind] at h
      subst h
      simp [cntEntries]
    · simp only [alistFind, if_neg hk] at h
      have := ih h
      simp only [cntEntries]
      omega

theorem cnt_walk_le {n0 n : Node} {p : List String}
    (h : walk n0 p = .ok n) (m : String) : cntNode m n ≤ cntNode m n0 := by
  induction p generalizing n0 with
  | nil =>
    simp only [walk, Except.ok.injEq] at h
    subst h
    exact le_refl _
  | cons k rest ih =>
    cases n0 with
    | bucket b => simp [walk] at h
    | mapping m0 =>
      simp only [walk] at h
      cases hf : alistFind k m0 with
      | none => rw [hf] at h; simp at h
      | some c =>
        rw [hf] at h
        simp only at h
        calc cntNode m n ≤ cntNode m c := ih h
          _ ≤ cntEntries m m0 := cnt_find_le hf m
          _ = cntNode m (.mapping m0) := by simp [cntNode]

theorem ensure_WF {create : Bool} {f : List String → List String} {t : Tree}
    {p : List String} {b : List String} {t1 : Tree}
    (hwf : treeWF t = true) (h : ensureBucketAux create f t p = .ok (b, t1)) :
    treeWF t1 = true := by
  induction p generalizing b t t1 with
  | nil => simp [ensureBucketAux] at h
  | cons k rest ih =>
    cases rest with
    | nil =>
      simp only [ensureBucketAux] at h
      split at h
      · rename_i heq
        split at h
        · simp only [Except.ok.injEq, Prod.mk.injEq] at h
          rw [← h.2]
          exact treeWF_setKey hwf (by simp [nodeWF])
        · simp at h
      · rename_i bb heq
        simp only [Except.ok.injEq, Prod.mk.injEq] at h
        rw [← h.2]
        exact treeWF_setKey hwf (by simp [nodeWF])
      · simp at h
    | cons k2 rest2 =>
      simp only [ensureBucketAux] at h
      split at h
      · rename_i heq
        split at h
        · split at h
          · rename_i bb sub he
            simp only [Except.ok.injEq, Prod.mk.injEq] at h
            rw [← h.2]
            have hsub : treeWF sub = true := ih (by simp [treeWF]) he
            exact treeWF_setKey hwf (by simpa [nodeWF] using hsub)
          · simp at h
        · simp at h
      · rename_i sub heq
        split at h
        · rename_i bb sub2 he
          simp only [Except.ok.injEq, Prod.mk.injEq] at h
          rw [← h.2]
          have hsubwf : treeWF sub = true := by
            simpa [nodeWF] using treeWF_find hwf heq
          have hsub2 : treeWF sub2 = true := ih hsubwf he
          exact treeWF_setKey hwf (by simpa [nodeWF] using hsub2)
        · simp at h
      · simp at h

theorem ensure_cnt {create : Bool} {f : List String → List String} {t : Tree}
    {p : List String} {b : List String} {t1 : Tree}
    (h : ensureBucketAux create f t p = .ok (b, t1)) (m : String) :
    cntEntries m t1 + b.count m = cntEntries m t + (f b).count m := by
  induction p generalizing b t t1 with
  | nil => simp [ensureBucketAux] at h
  | cons k rest ih =>
    cases rest with
    | nil =>
      simp only [ensureBucketAux] at h
      split at h
      · rename_i heq
        split at h
        · simp only [Except.ok.injEq, Prod.mk.injEq] at h
          obtain ⟨hb, ht⟩ := h
          subst hb; subst ht
          have := cntEntries_setKey_none heq (Node.bucket (f [])) m
          simp only [cntNode] at this
          simp only [List.count_nil]
          omega
        · simp at h
      · rename_i bb heq
        simp only [Except.ok.injEq, Prod.mk.injEq] at h
        obtain ⟨hb, ht⟩ := h
        subst hb; subst ht
        have := cntEntries_setKey_some heq (Node.bucket (f bb)) m
        simp only [cntNode] at this
        omega
      · simp at h
    | cons k2 rest2 =>
      simp only [ensureBucketAux] at h
      split at h
      · rename_i heq
        split at h
        · split at h
          · rename_i bb sub he
            simp only [Except.ok.injEq, Prod.mk.injEq] at h
            obtain ⟨hb, ht⟩ := h
            subst hb; subst ht
            have h1 := ih he
            simp only [cntEntries] at h1
            have h2 := cntEntries_setKey_none heq (Node.mapping sub) m
            simp only [cntNode] at h2
            omega
          · simp at h
        · simp at h
      · rename_i sub heq
        split at h
        · rename_i bb sub2 he
          simp only [Except.ok.injEq, Prod.mk.injEq] at h
          obtain ⟨hb, ht⟩ := h
          subst hb; subst ht
          have h1 := ih he
          have h2 := cntEntries_setKey_some heq (Node.mapping sub2) m
          simp only [cntNode] at h2
          omega
        · simp at h
      · simp at h

theorem ensure_cnt_le {create : Bool} {f : List String → List String} {t : Tree}
    {p : List String} {b : List String} {t1 : Tree}
    (h : ensureBucketAux create f t p = .ok (b, t1)) (m : String) :
    b.count m ≤ cntEntries m t := by
  induction p generalizing b t t1 with
  | nil => simp [ensureBucketAux] at h
  | cons k rest ih =>
    cases rest with
    | nil =>
      simp only [ensureBucketAux] at h
      split at h
      · rename_i heq
        split at h
        · simp only [Except.ok.injEq, Prod.mk.injEq] at h
          rw [← h.1]
          simp
        · simp at h
      · rename_i bb heq
        simp only [Except.ok.injEq, Prod.mk.injEq] at h
        rw [← h.1]
        have := cnt_find_le heq m
        simpa [cntNode] using this
      · simp at h
    | cons k2 rest2 =>
      simp only [ensureBucketAux] at h
      split at h
      · rename_i heq
        split at h
        · split at h
          · rename_i bb sub he
            simp only [Except.ok.injEq, Prod.mk.injEq] at h
            rw [← h.1]
            have := ih he
            simp only [cntEntries] at this
            omega
          · simp at h
        · simp at h
      · rename_i sub heq
        split at h
        · rename_i bb sub2 he
          simp only [Except.ok.injEq, Prod.mk.injEq] at h
          rw [← h.1]
          have h1 := ih he
          have h2 := cnt_find_le heq m
          simp only [cntNode] at h2
          omega
        · simp at h
      · simp at h

/-! ## `_prune_empty_branch` lemmas -/

theorem prune_exists {t : Tree} {p : List String} {n : Node}
    (h : walkT t p = .ok n) : ∃ t2, pruneAux t p = some t2 := by
  induction p generalizing t n with
  | nil => exact ⟨t, rfl⟩
  | cons k rest ih =>
    simp only [walkT, walk] at h
    cases hf : alistFind k t with
    | none => rw [hf] at h; simp at h
    | some c =>
      rw [hf] at h
      simp only at h
      cases rest with
      | nil => exact ⟨_, rfl⟩
      | cons k2 rest2 =>
        cases c with
        | bucket bb => simp [walk] at h
        | mapping sub =>
          obtain ⟨sub2, hsub2⟩ := ih (show walkT sub (k2 :: rest2) = .ok n from h)
          refine ⟨if (Node.mapping sub2).isEmptyNode then alistErase k t
            else alistSet k (Node.mapping sub2) t, ?_⟩
          simp only [pruneAux, hf, hsub2]

theorem prune_cnt {t : Tree} {p : List String} {t2 : Tree}
    (h : pruneAux t p = some t2) (m : String) :
    cntEntries m t2 = cntEntries m t := by
  induction p generalizing t t2 with
  | nil =>
    simp only [pruneAux, Option.some.injEq] at h
    subst h; rfl
  | cons k rest ih =>
    cases rest with
    | nil =>
      simp only [pruneAux, Option.some.injEq] at h
      subst h
      split
      · rename_i heq
        have := cntEntries_eraseKey heq m
        simp only [cntNode, List.count_nil] at this
        omega
      · rfl
    | cons k2 rest2 =>
      simp only [pruneAux] at h
      split at h
      · simp at h
      · simp at h
      · rename_i sub heq
        split at h
        · simp at h
        · rename_i sub2 hsub2
          simp only [Option.some.injEq] at h
          subst h
          have hih := ih hsub2 
          split
          · rename_i hempty
            have hnil : sub2 = [] := by
              cases sub2 with
              | nil => rfl
              | cons a l => simp [Node.isEmptyNode] at hempty
            subst hnil
            have := cntEntries_eraseKey heq m
            simp only [cntNode] at this
            simp only [cntEntries] at hih
            omega
          · have := cntEntries_setKey_some heq (Node.mapping sub2) m
            simp only [cntNode] at this
            omega

theorem prune_WF {t : Tree} {p : List String} {t2 : Tree}
    (hwf : treeWF t = true) (h : pruneAux t p = some t2) :
    treeWF t2 = true := by
  induction p generalizing t t2 with
  | nil =>
    simp only [pruneAux, Option.some.injEq] at h
    subst h; exact hwf
  | cons k rest ih =>
    cases rest with
    | nil =>
      simp only [pruneAux, Option.some.injEq] at h
      subst h
      split
      · exact treeWF_eraseKey k hwf
      · exact hwf
    | cons k2 rest2 =>
      simp only [pruneAux] at h
      split at h
      · simp at h
      · simp at h
      · rename_i sub heq
        split at h
        · simp at h
        · rename_i sub2 hsub2
          simp only [Option.some.injEq] at h
          subst h
          have hsubwf : treeWF sub = true := by
            simpa [nodeWF] using treeWF_find hwf heq
          have hsub2wf := ih hsubwf hsub2
          split
          · exact treeWF_eraseKey k hwf
          · exact treeWF_setKey hwf (by simpa [nodeWF] using hsub2wf)

theorem prune_empty_bucket {t : Tree} {p : List String} {t2 : Tree}
    (hwf : treeWF t = true) (hw : walkT t p = .ok (.bucket []))
    (hp : pruneAux t p = some t2) :
    (∀ n, walkT t2 p ≠ .ok n) ∧
      (∀ q n, q ≠ [] → (∃ r, q ++ r = p) → walkT t2 q = .ok n →
        n.isEmptyNode = false) := by
  induction p generalizing t t2 with
  | nil => simp [walkT, walk] at hw
  | cons k rest ih =>
    simp only [walkT, walk] at hw
    cases hf : alistFind k t with
    | none => rw [hf] at hw; simp at hw
    | some c =>
      rw [hf] at hw
      simp only at hw
      cases rest with
      | nil =>
        -- terminal: the bucket at `k` is empty and gets popped
        simp only [walk, Except.ok.injEq] at hw
        subst hw
        simp only [pruneAux, hf, Option.some.injEq] at hp
        subst hp
        have hgone : alistFind k (alistErase k t) = none :=
          alistFind_eraseKey_self (treeWF_keys hwf)
        constructor
        · intro n hn
          simp [walkT, walk, hgone] at hn
        · intro q n hq hpre hn
          obtain ⟨r, hr⟩ := hpre
          cases q with
          | nil => exact absurd rfl hq
          | cons a q' =>
            simp only [List.cons_append, List.cons.injEq] at hr
            obtain ⟨rfl, hr2⟩ := hr
            have : q' = [] := by
              cases q' with
              | nil => rfl
              | cons b q2 => simp at hr2
            subst this
            simp [walkT, walk, hgone] at hn
      | cons k2 rest2 =>
        cases c with
        | bucket bb => simp [walk] at hw
        | mapping sub =>
          have hwsub : walkT sub (k2 :: rest2) = .ok (.bucket []) := hw
          simp only [pruneAux, hf] at hp
          cases hps : pruneAux sub (k2 :: rest2) with
          | none => rw [hps] at hp; simp at hp
          | some sub2 =>
            rw [hps] at hp
            simp only [Option.some.injEq] at hp
            have hsubwf : treeWF sub = true := by
              simpa [nodeWF] using treeWF_find hwf hf
            obtain ⟨ih1, ih2⟩ := ih hsubwf hwsub hps
            by_cases hempty : (Node.mapping sub2).isEmptyNode = true
            · rw [if_pos hempty] at hp
              subst hp
              have hgone : alistFind k (alistErase k t) = none :=
                alistFind_eraseKey_self (treeWF_keys hwf)
              constructor
              · intro n hn
                simp [walkT, walk, hgone] at hn
              · intro q n hq hpre hn
                obtain ⟨r, hr⟩ := hpre
                cases q with
                | nil => exact absurd rfl hq
                | cons a q' =>
                  simp only [List.cons_append, List.cons.injEq] at hr
                  obtain ⟨rfl, -⟩ := hr
                  simp [walkT, walk, hgone] at hn
            · rw [if_neg hempty] at hp
              subst hp
              have hfind : alistFind k (alistSet k (Node.mapping sub2) t) =
                  some (Node.mapping sub2) := alistFind_setKey_self k _ t
              constructor
              · intro n hn
                simp only [walkT, walk, hfind] at hn
                exact ih1 n hn
              · intro q n hq hpre hn
                obtain ⟨r, hr⟩ := hpre
                cases q with
                | nil => exact absurd rfl hq
                | cons a q' =>
                  simp only [List.cons_append, List.cons.injEq] at hr
                  obtain ⟨rfl, hr2⟩ := hr
                  simp only [walkT, walk, hfind] at hn
                  cases q' with
                  | nil =>
                    simp only [walk, Except.ok.injEq] at hn
                    subst hn
                    simpa using hempty
                  | cons b q2 =>
                    exact ih2 (b :: q2) n (by simp) ⟨r, hr2⟩ hn


/-! ## Traversal lemmas -/

theorem alistFind_mem {α : Type} {k : String} {v : α}
    {m : List (String × α)} (h : alistFind k m = some v) : (k, v) ∈ m := by
  induction m with
  | nil => simp [alistFind] at h
  | cons hd tl ih =>
    obtain ⟨k0, v0⟩ := hd
    by_cases hk : k0 = k
    · subst hk
      simp [alistFind] at h
      subst h
      exact List.mem_cons_self _ _
    · simp only [alistFind, if_neg hk] at h
      exact List.mem_cons_of_mem _ (ih h)

theorem alistFind_mem_keys {α : Type} {k : String} {v : α}
    {m : List (String × α)} (h : alistFind k m = some v) :
    k ∈ m.map Prod.fst := by
  exact List.mem_map_of_mem Prod.fst (alistFind_mem h) 

theorem iter_entry_sub {k : String} {c : Node} {m0 : Tree}
    (hmem : (k, c) ∈ m0) {pr : String × List String} {q0 : List String}
    (h : pr ∈ iterNode c (q0 ++ [k])) : pr ∈ iterEntries m0 q0 := by
  induction m0 with
  | nil => simp at hmem
  | cons hd tl ih =>
    obtain ⟨k0, c0⟩ := hd
    rcases List.mem_cons.mp hmem with heq | hmem2
    · injection heq with h1 h2
      subst h1; subst h2
      simp only [iterEntries, List.mem_append]
      exact Or.inl h
    · simp only [iterEntries, List.mem_append]
      exact Or.inr (ih hmem2)

theorem walk_mem_iter {name : String} {q1 : List String} {b : List String} :
    ∀ {n : Node} {q0 : List String}, walk n q1 = .ok (.bucket b) → name ∈ b →
    (name, q0 ++ q1) ∈ iterNode n q0 := by
  induction q1 with
  | nil =>
    intro n q0 hw hb
    simp only [walk, Except.ok.injEq] at hw
    subst hw
    simp only [iterNode, List.append_nil]
    exact List.mem_map_of_mem (fun obj => (obj, q0)) hb
  | cons k rest ih =>
    intro n q0 hw hb
    cases n with
    | bucket bb => simp [walk] at hw
    | mapping m0 =>
      simp only [walk] at hw
      cases hf : alistFind k m0 with
      | none => rw [hf] at hw; simp at hw
      | some c =>
        rw [hf] at hw
        simp only at hw
        have := @ih c (q0 ++ [k]) hw hb
        have hmem := iter_entry_sub (alistFind_mem hf) this
        simpa [iterNode, List.append_assoc] using hmem

theorem iter_mem_walk :
    (∀ (n : Node) (q0 : List String), nodeWF n = true →
      ∀ name q, (name, q) ∈ iterNode n q0 →
        ∃ q1 b, q = q0 ++ q1 ∧ walk n q1 = .ok (.bucket b) ∧ name ∈ b) ∧
    (∀ (m : Tree) (q0 : List String), treeWF m = true →
      ∀ name q, (name, q) ∈ iterEntries m q0 →
        ∃ q1 b, q = q0 ++ q1 ∧ walkT m q1 = .ok (.bucket b) ∧ name ∈ b) := by
  apply iterNode.mutual_induct
    (motive_1 := fun n q0 => nodeWF n = true →
      ∀ name q, (name, q) ∈ iterNode n q0 →
        ∃ q1 b, q = q0 ++ q1 ∧ walk n q1 = .ok (.bucket b) ∧ name ∈ b)
    (motive_2 := fun m q0 => treeWF m = true →
      ∀ name q, (name, q) ∈ iterEntries m q0 →
        ∃ q1 b, q = q0 ++ q1 ∧ walkT m q1 = .ok (.bucket b) ∧ name ∈ b)
  · intro items p _ name q hmem
    simp only [iterNode, List.mem_map] at hmem
    obtain ⟨obj, hobj, heq⟩ := hmem
    injection heq with h1 h2
    subst h1; subst h2
    exact ⟨[], items, by simp, by simp [walk], hobj⟩
  · intro m p ih hwf name q hmem
    simp only [iterNode] at hmem
    have hwf2 : treeWF m = true := by simpa [nodeWF] using hwf
    exact ih hwf2 name q hmem
  · intro q0 _ name q hmem
    simp [iterEntries] at hmem
  · intro k child rest p ih1 ih2 hwf name q hmem
    rw [treeWF_cons] at hwf
    obtain ⟨hkeys, hchild, hrest⟩ := hwf
    simp only [iterEntries, List.mem_append] at hmem
    rcases hmem with hmem | hmem
    · obtain ⟨q1, b, hq, hwalk, hb⟩ := ih1 hchild name q hmem
      refine ⟨k :: q1, b, by simpa [List.append_assoc] using hq, ?_, hb⟩
      simpa [walkT, walk, alistFind] using hwalk
    · obtain ⟨q1, b, hq, hwalk, hb⟩ := ih2 hrest name q hmem
      refine ⟨q1, b, hq, ?_, hb⟩
      cases q1 with
      | nil => simp [walkT, walk] at hwalk
      | cons k1 q2 =>
        simp only [walkT, walk] at hwalk ⊢
        cases hf : alistFind k1 rest with
        | none => rw [hf] at hwalk; simp at hwalk
        | some c =>
          rw [hf] at hwalk
          have hne : k ≠ k1 := by
            intro hkk
            subst hkk
            exact (hkeys _ (alistFind_mem hf)) rfl
          simp only [alistFind, if_neg hne, hf]
          exact hwalk

theorem cnt_iter (m : String) :
    (∀ (n : Node) (q0 : List String),
      cntNode m n = ((iterNode n q0).filter (fun pr => pr.1 = m)).length) ∧
    (∀ (es : Tree) (q0 : List String),
      cntEntries m es = ((iterEntries es q0).filter (fun pr => pr.1 = m)).length) := by
  apply iterNode.mutual_induct
    (motive_1 := fun n q0 =>
      cntNode m n = ((iterNode n q0).filter (fun pr => pr.1 = m)).length)
    (motive_2 := fun es q0 =>
      cntEntries m es = ((iterEntries es q0).filter (fun pr => pr.1 = m)).length)
  · intro items p
    simp only [iterNode, cntNode]
    induction items with
    | nil => simp
    | cons a l ihl =>
      by_cases ha : a = m
      · subst ha
        simp only [List.map_cons, List.filter_cons, List.count_cons]
        simp [ihl]
      · simp only [List.map_cons, List.filter_cons, List.count_cons]
        simp [ihl, ha, Ne.symm ha]
  · intro es p ih
    simpa [iterNode, cntNode] using ih
  · intro q0
    simp [iterEntries, cntEntries]
  · intro k child rest p ih1 ih2
    simp only [iterEntries, cntEntries, List.filter_append, List.length_append]
    omega


/-! ## Operation-level lemmas -/

theorem findObject_some {name : String} {t : Tree} {p : List String}
    (hwf : treeWF t = true) (h : findObject name t = some p) :
    ∃ b, walkT t p = .ok (.bucket b) ∧ name ∈ b := by
  simp only [findObject, Option.map_eq_some'] at h
  obtain ⟨pr, hfind, hsnd⟩ := h
  have hmem := List.mem_of_find?_eq_some hfind
  have hpred := List.find?_some hfind
  simp only [decide_eq_true_eq] at hpred
  obtain ⟨n1, q⟩ := pr
  simp only at hpred hsnd
  have hnwf : nodeWF (Node.mapping t) = true := by simpa [nodeWF] using hwf
  obtain ⟨q1, b, hq, hwalk, hb⟩ := (iter_mem_walk.1) (Node.mapping t) [] hnwf n1 q hmem
  refine ⟨b, ?_, ?_⟩
  · rw [← hsnd, hq, List.nil_append]
    exact hwalk
  · rw [← hpred]
    exact hb

theorem removeObject_some_ok {sep name : String} {parg : PathArg}
    {t t' : Tree}
    (h : removeObject sep name (some parg) t = .ok (true, t')) :
    ∃ p b tb, normalizePath sep parg = .ok p ∧
      ensureBucketAux false (fun bb => bb.erase name) t p = .ok (b, tb) ∧
      name ∈ b ∧ t' = prune tb p := by
  simp only [removeObject] at h
  split at h
  · simp at h
  · rename_i p hnorm
    split at h
    · simp at h
    · simp at h
    · rename_i b tb he
      split at h
      · rename_i hmem
        simp only [Except.ok.injEq, Prod.mk.injEq, true_and] at h
        exact ⟨p, b, tb, hnorm, he, hmem, h.symm⟩
      · simp at h

theorem removeObject_none_ok {sep name : String} {t t' : Tree}
    (h : removeObject sep name none t = .ok (true, t')) :
    ∃ p b tb, findObject name t = some p ∧
      ensureBucketAux false (fun bb => bb.erase name) t p = .ok (b, tb) ∧
      t' = prune tb p := by
  simp only [removeObject] at h
  split at h
  · simp at h
  · rename_i p hfind
    split at h
    · simp at h
    · rename_i pr b tb he
      simp only [Except.ok.injEq, Prod.mk.injEq, true_and] at h
      exact ⟨p, b, tb, hfind, he, h.symm⟩

theorem removeObject_false {sep name : String} {pathOpt : Option PathArg}
    {t t' : Tree}
    (h : removeObject sep name pathOpt t = .ok (false, t')) : t' = t := by
  cases pathOpt with
  | none =>
    simp only [removeObject] at h
    split at h
    · simp only [Except.ok.injEq, Prod.mk.injEq, true_and] at h
      exact h.symm
    · rename_i p hfind
      split at h
      · simp at h
      · simp at h
  | some parg =>
    simp only [removeObject] at h
    split at h
    · simp at h
    · rename_i p hnorm
      split at h
      · simp only [Except.ok.injEq, Prod.mk.injEq, true_and] at h
        exact h.symm
      · simp at h
      · rename_i b tb he
        split at h
        · simp at h
        · simp only [Except.ok.injEq, Prod.mk.injEq, true_and] at h
          exact h.symm

theorem addObject_ok {sep : String} {parg : PathArg} {name : String}
    {dup : Bool} {t : Tree} {r : Bool} {t' : Tree}
    (h : addObject sep parg name dup t = .ok (r, t')) :
    ∃ p b, normalizePath sep parg = .ok p ∧
      ensureBucketAux true (addMut name dup) t p = .ok (b, t') ∧
      (r = true ↔ ¬(¬dup = true ∧ name ∈ b)) := by
  simp only [addObject] at h
  split at h
  · simp at h
  · rename_i p hnorm
    split at h
    · simp at h
    · rename_i b tb he
      split at h
      · rename_i hmem
        simp only [Except.ok.injEq, Prod.mk.injEq] at h
        obtain ⟨hr, ht⟩ := h
        subst ht
        refine ⟨p, b, hnorm, he, ?_⟩
        rw [← hr]
        simp only [Bool.false_eq_true, false_iff, not_not]
        exact hmem
      · rename_i hmem
        simp only [Except.ok.injEq, Prod.mk.injEq] at h
        obtain ⟨hr, ht⟩ := h
        subst ht
        refine ⟨p, b, hnorm, he, ?_⟩
        rw [← hr]
        simp only [true_iff]
        exact hmem

theorem removeObject_cnt_WF {sep name : String} {pathOpt : Option PathArg}
    {t t1 : Tree} (hwf : treeWF t = true)
    (h : removeObject sep name pathOpt t = .ok (true, t1)) :
    cntEntries name t1 + 1 = cntEntries name t ∧ treeWF t1 = true := by
  have key : ∀ (p : List String) (b : List String) (tb : Tree),
      ensureBucketAux false (fun bb => bb.erase name) t p = .ok (b, tb) →
      name ∈ b → t1 = prune tb p →
      cntEntries name t1 + 1 = cntEntries name t ∧ treeWF t1 = true := by
    intro p b tb he hmem ht1
    have hcnt := ensure_cnt he name
    have herase : (b.erase name).count name = b.count name - 1 :=
      List.count_erase_self name b
    have hpos : 0 < b.count name := List.count_pos_iff.mpr hmem
    have hcnt2 : cntEntries name tb + 1 = cntEntries name t := by omega
    have hwf2 : treeWF tb = true := ensure_WF hwf he
    cases hpa : pruneAux tb p with
    | none =>
      have : t1 = tb := by rw [ht1, prune, hpa]; rfl
      subst this
      exact ⟨hcnt2, hwf2⟩
    | some t2 =>
      have : t1 = t2 := by rw [ht1, prune, hpa]; rfl
      subst this
      exact ⟨by rw [prune_cnt hpa]; exact hcnt2, prune_WF hwf2 hpa⟩
  cases pathOpt with
  | some parg =>
    obtain ⟨p, b, tb, hnorm, he, hmem, ht1⟩ := removeObject_some_ok h
    exact key p b tb he hmem ht1
  | none =>
    obtain ⟨p, b, tb, hfind, he, ht1⟩ := removeObject_none_ok h
    obtain ⟨b0, hwalk, hb0⟩ := findObject_some hwf hfind
    have hwalk2 := ensure_false_walk he
    have hbb : b = b0 := by
      rw [hwalk] at hwalk2
      injection hwalk2 with hh
      injection hh with hh2
      exact hh2.symm
    subst hbb
    exact key p b tb he hb0 ht1


/-! ## Claim theorems -/

theorem normalize_err {sep : String} {parg : PathArg} {e : Err}
    (h : normalizePath sep parg = .error e) :
    e = .valueError "path must contain at least one segment" := by
  cases parg with
  | str str =>
    simp only [normalizePath] at h
    split at h
    · injection h with h1
      exact h1.symm
    · simp at h
  | seq l =>
    simp only [normalizePath] at h
    split at h
    · injection h with h1
      exact h1.symm
    · simp at h

/-- C1 counterexample: invoking the handler `tool_add_object` on a store
where "Kitchen" is a bucket, with a path descending through it, propagates
the `TypeError` raised by `_ensure_bucket` past the handler boundary
instead of yielding an error envelope — the handler has no try/except of
its own. -/
theorem C1_counterexample :
    toolAddObject [("Kitchen", Node.bucket [])] ["Kitchen", "Drawers"]
        "soap" false =
      .error (.typeError "Bucket parent must be a mapping") := by
  rfl

/-- C1 amended: the exception that escapes `tool_add_object` is caught one
level up, by the orchestrator wrapper `_execute_tool_call`, which converts
any exception into an error envelope and leaves the store unchanged, so
that a tool response can always be produced. -/
theorem C1_amended {t : Tree} {path : List String} {name : String}
    {dup : Bool} {e : Err}
    (h : toolAddObject t path name dup = .error e) :
    executeToolCall (toolAddObject t path name dup) t =
      (.error (errMessage e), t) := by
  rw [h]
  rfl

theorem C1_witness :
    toolAddObject [("Kitchen", Node.bucket [])] ["Kitchen", "Drawers"]
        "soap" false =
      .error (.typeError "Bucket parent must be a mapping") ∧
    executeToolCall
        (toolAddObject [("Kitchen", Node.bucket [])] ["Kitchen", "Drawers"]
          "soap" false)
        [("Kitchen", Node.bucket [])] =
      (.error (errMessage (.typeError "Bucket parent must be a mapping")),
        [("Kitchen", Node.bucket [])]) :=
  ⟨by rfl, C1_amended (by rfl)⟩

/-- C2, evaluated at the failing input: on the graph with steps "a", "b"
and the single edge b→a, `update_step("a", "b")` produces the self-loop
b→b.  The source guard `if new_step != neighbors:` compares the string
`new_step` with the set `neighbors`, which is never equal in Python, so
the addition the claim (and the spec) says is skipped does happen. -/
theorem C2_self_loop_created :
    updateStep [("b", ["a"]), ("a", [])] "a" "b" = [("b", ["b"])] ∧
    edgeG (updateStep [("b", ["a"]), ("a", [])] "a" "b") "b" "b" := by
  have h : updateStep [("b", ["a"]), ("a", [])] "a" "b" = [("b", ["b"])] := by
    rfl
  refine ⟨h, ⟨["b"], ?_, by simp⟩⟩
  rw [h]
  rfl

/-- C7: `move_object` is `remove_object` followed by `add_object`; when
the removal step reports failure (the object is absent from the given old
path, or from the whole index when no old path is given), `move_object`
returns `False` and the index — in particular the bucket at the target
path — is left completely unchanged: no partial move. -/
theorem C7_move_fails_unchanged {sep name : String} {newPath : PathArg}
    {oldPath : Option PathArg} {dup : Bool} {t t0 : Tree}
    (h : removeObject sep name oldPath t = .ok (false, t0)) :
    t0 = t ∧ moveObject sep name newPath oldPath dup t = .ok (false, t) := by
  have ht := removeObject_false h
  subst ht
  exact ⟨rfl, by simp [moveObject, h]⟩

theorem C7_witness :
    removeObject "/" "y" none [("a", Node.bucket ["x"])] =
      .ok (false, [("a", Node.bucket ["x"])]) ∧
    ([("a", Node.bucket ["x"])] : Tree) = [("a", Node.bucket ["x"])] ∧
    moveObject "/" "y" (.seq ["z"]) none false [("a", Node.bucket ["x"])] =
      .ok (false, [("a", Node.bucket ["x"])]) := by
  refine ⟨by rfl, ?_⟩
  exact C7_move_fails_unchanged (by rfl)

/-- C10 counterexample: `move_object` with an empty-normalizing new path
returns `False` instead of raising `ValueError` when the object is absent
— the removal step fails first and the new path is never normalized. -/
theorem C10_counterexample :
    moveObject "/" "x" (.str "") none false ([] : Tree) = .ok (false, []) := by
  rfl

/-- C10 amended: every public path-taking `ObjectDict` operation —
including the otherwise non-raising `has_path` and `get_path` — raises
`ValueError` (never returns `False` or the default) when the supplied
path normalizes to zero segments, with the single exception of
`move_object`, which validates its new path only after a successful
removal: a failing removal returns `False` before the new path is
normalized. -/
theorem C10_amended {sep : String} {parg : PathArg} {t : Tree} {e : Err}
    (h : normalizePath sep parg = .error e) :
    e = .valueError "path must contain at least one segment" ∧
    hasPath sep parg t = .error e ∧
    (∀ d, getPath sep parg d t = .error e) ∧
    deletePath sep parg t = .error e ∧
    (∀ name dup, addObject sep parg name dup t = .error e) ∧
    (∀ names dup, extendObjects sep parg names dup t = .error e) ∧
    (∀ name, removeObject sep name (some parg) t = .error e) ∧
    (∀ name np dup, moveObject sep name np (some parg) dup t = .error e) ∧
    (∀ name dup t1, removeObject sep name none t = .ok (true, t1) →
      moveObject sep name parg none dup t = .error e) := by
  refine ⟨normalize_err h, ?_, ?_, ?_, ?_, ?_, ?_, ?_, ?_⟩
  · simp [hasPath, h]
  · intro d
    simp [getPath, h]
  · simp [deletePath, h]
  · intro name dup
    simp [addObject, h]
  · intro names dup
    simp [extendObjects, h]
  · intro name
    simp [removeObject, h]
  · intro name np dup
    simp [moveObject, removeObject, h]
  · intro name dup t1 hrm
    simp [moveObject, hrm, addObject, h]

theorem C10_witness :
    normalizePath "/" ((PathArg.seq [])) =
      .error (.valueError "path must contain at least one segment") ∧
    ((Err.valueError "path must contain at least one segment") =
        .valueError "path must contain at least one segment" ∧
      hasPath "/" ((PathArg.seq [])) [("a", Node.bucket ["x"])] =
        .error (.valueError "path must contain at least one segment") ∧
      (∀ d, getPath "/" ((PathArg.seq [])) d [("a", Node.bucket ["x"])] =
        .error (.valueError "path must contain at least one segment")) ∧
      deletePath "/" ((PathArg.seq [])) [("a", Node.bucket ["x"])] =
        .error (.valueError "path must contain at least one segment") ∧
      (∀ name dup,
        addObject "/" ((PathArg.seq [])) name dup [("a", Node.bucket ["x"])] =
          .error (.valueError "path must contain at least one segment")) ∧
      (∀ names dup,
        extendObjects "/" ((PathArg.seq [])) names dup
            [("a", Node.bucket ["x"])] =
          .error (.valueError "path must contain at least one segment")) ∧
      (∀ name,
        removeObject "/" name (some ((PathArg.seq [])))
            [("a", Node.bucket ["x"])] =
          .error (.valueError "path must contain at least one segment")) ∧
      (∀ name np dup,
        moveObject "/" name np (some ((PathArg.seq []))) dup
            [("a", Node.bucket ["x"])] =
          .error (.valueError "path must contain at least one segment")) ∧
      (∀ name dup t1,
        removeObject "/" name none [("a", Node.bucket ["x"])] =
            .ok (true, t1) →
        moveObject "/" name ((PathArg.seq [])) none dup
            [("a", Node.bucket ["x"])] =
          .error (.valueError "path must contain at least one segment"))) :=
  ⟨by rfl, C10_amended (by rfl)⟩


/-- C6: whenever `remove_object` removes the last item of a bucket (the
bucket held exactly that one item), the now-empty bucket is detached from
its parent and every ancestor mapping left empty is detached in turn,
walking upward and stopping at the first non-empty ancestor (no surviving
node on the path is an empty mapping or empty bucket); the root mapping
itself survives (the result is still a tree), and no other stored object
is gained or lost. -/
theorem C6_prune_empty_branch {sep name : String} {parg : PathArg}
    {t t' : Tree} {p : List String}
    (hwf : treeWF t = true)
    (hnorm : normalizePath sep parg = .ok p)
    (hbucket : walkT t p = .ok (.bucket [name]))
    (h : removeObject sep name (some parg) t = .ok (true, t')) :
    (∀ n, walkT t' p ≠ .ok n) ∧
    (∀ q n, q ≠ [] → (∃ r, q ++ r = p) → walkT t' q = .ok n →
      n.isEmptyNode = false) ∧
    (∀ m, m ≠ name → cntEntries m t' = cntEntries m t) := by
  obtain ⟨p2, b, tb, hnorm2, he, hmem, ht'⟩ := removeObject_some_ok h
  rw [hnorm] at hnorm2
  injection hnorm2 with hp2
  subst hp2
  have hwalk := ensure_false_walk he
  rw [hbucket] at hwalk
  injection hwalk with hw
  injection hw with hb
  subst hb
  have hafter := ensure_walk_after he
  rw [List.erase_cons_head] at hafter
  have hwfb : treeWF tb = true := ensure_WF hwf he
  obtain ⟨t2, ht2⟩ := prune_exists hafter
  have ht'2 : t' = t2 := by rw [ht', prune, ht2]; rfl
  subst ht'2
  obtain ⟨h1, h2⟩ := prune_empty_bucket hwfb hafter ht2
  refine ⟨h1, h2, fun m hm => ?_⟩
  have hcnt := ensure_cnt he m
  have hz : List.count m [name] = 0 := by
    simp only [List.count_eq_zero, List.mem_singleton]
    exact hm
  have hz2 : List.count m (List.erase [name] name) = 0 := by
    rw [List.erase_cons_head]
    simp
  rw [prune_cnt ht2 m]
  omega

theorem C6_witness :
    treeWF [("a", Node.mapping [("b", Node.bucket ["x"])]),
        ("c", Node.bucket ["y"])] = true ∧
    normalizePath "/" (PathArg.seq ["a", "b"]) = .ok ["a", "b"] ∧
    walkT [("a", Node.mapping [("b", Node.bucket ["x"])]),
        ("c", Node.bucket ["y"])] ["a", "b"] = .ok (.bucket ["x"]) ∧
    removeObject "/" "x" (some (PathArg.seq ["a", "b"]))
        [("a", Node.mapping [("b", Node.bucket ["x"])]),
          ("c", Node.bucket ["y"])] =
      .ok (true, [("c", Node.bucket ["y"])]) ∧
    ((∀ n, walkT [("c", Node.bucket ["y"])] ["a", "b"] ≠ .ok n) ∧
      (∀ q n, q ≠ [] → (∃ r, q ++ r = ["a", "b"]) →
        walkT [("c", Node.bucket ["y"])] q = .ok n →
        n.isEmptyNode = false) ∧
      (∀ m, m ≠ "x" →
        cntEntries m [("c", Node.bucket ["y"])] =
          cntEntries m [("a", Node.mapping [("b", Node.bucket ["x"])]),
            ("c", Node.bucket ["y"])])) := by
  have happ := @C6_prune_empty_branch "/" "x" (PathArg.seq ["a", "b"])
    [("a", Node.mapping [("b", Node.bucket ["x"])]), ("c", Node.bucket ["y"])]
    [("c", Node.bucket ["y"])] ["a", "b"] (by rfl) (by rfl) (by rfl) (by rfl)
  exact ⟨by rfl, by rfl, by rfl, by rfl, happ⟩

/-- C9: the boolean result of `move_object` is exactly the removal step's
result: when removal succeeds but `add_object` declines to insert because
the name is already present in the destination bucket and duplicates are
disallowed, `move_object` still returns `True`, and the net effect is the
removal alone — the resulting tree, destination bucket included, is
exactly the post-removal tree. -/
theorem C9_move_true_add_declined {sep name : String} {newPath : PathArg}
    {oldPath : Option PathArg} {t t1 : Tree} {np : List String}
    {nb : List String}
    (hrm : removeObject sep name oldPath t = .ok (true, t1))
    (hnorm : normalizePath sep newPath = .ok np)
    (hbucket : walkT t1 np = .ok (.bucket nb))
    (hmem : name ∈ nb) :
    moveObject sep name newPath oldPath false t = .ok (true, t1) := by
  have hcond : ¬(false : Bool) = true ∧ name ∈ nb :=
    ⟨Bool.false_ne_true, hmem⟩
  obtain ⟨ta, hta⟩ :=
    @walk_ensure true (addMut name false) t1 np nb hbucket
  have hid : ta = t1 := by
    refine ensure_id hta ?_ ?_
    · simp only [addMut, if_pos hcond]
    · intro hnil
      rw [hnil] at hmem
      simp at hmem
  rw [hid] at hta
  have hadd : addObject sep newPath name false t1 = .ok (false, t1) := by
    simp only [addObject, hnorm, hta]
    rw [if_pos hcond]
  simp [moveObject, hrm, hadd]

theorem C9_witness :
    removeObject "/" "x" none [("a", Node.bucket ["x"]), ("b", Node.bucket ["x"])] =
      .ok (true, [("b", Node.bucket ["x"])]) ∧
    normalizePath "/" (PathArg.seq ["b"]) = .ok ["b"] ∧
    walkT [("b", Node.bucket ["x"])] ["b"] = .ok (.bucket ["x"]) ∧
    "x" ∈ ["x"] ∧
    moveObject "/" "x" (PathArg.seq ["b"]) none false
        [("a", Node.bucket ["x"]), ("b", Node.bucket ["x"])] =
      .ok (true, [("b", Node.bucket ["x"])]) := by
  have happ := @C9_move_true_add_declined "/" "x" (PathArg.seq ["b"]) none
    [("a", Node.bucket ["x"]), ("b", Node.bucket ["x"])]
    [("b", Node.bucket ["x"])] ["b"] ["x"]
    (by rfl) (by rfl) (by rfl) (by simp)
  exact ⟨by rfl, by rfl, by rfl, by simp, happ⟩


theorem cnt_one_same_path {name : String} {t : Tree}
    (hcnt : cntEntries name t = 1) {p q : List String} {bp bq : List String}
    (hp : walkT t p = .ok (.bucket bp)) (hbp : name ∈ bp)
    (hq : walkT t q = .ok (.bucket bq)) (hbq : name ∈ bq) : p = q := by
  have hp2 : walk (Node.mapping t) p = .ok (.bucket bp) := hp
  have hq2 : walk (Node.mapping t) q = .ok (.bucket bq) := hq
  have hmp := @walk_mem_iter name p bp (Node.mapping t) [] hp2 hbp
  have hmq := @walk_mem_iter name q bq (Node.mapping t) [] hq2 hbq
  simp only [List.nil_append] at hmp hmq
  have hlen :
      ((iterNode (Node.mapping t) []).filter
        (fun pr => pr.1 = name)).length = 1 := by
    have := (cnt_iter name).1 (Node.mapping t) []
    simp only [cntNode] at this
    rw [← this]
    exact hcnt
  obtain ⟨z, hz⟩ := List.length_eq_one.mp hlen
  have hmpf : (name, p) ∈ (iterNode (Node.mapping t) []).filter
      (fun pr => pr.1 = name) := by
    rw [List.mem_filter]
    exact ⟨hmp, by simp⟩
  have hmqf : (name, q) ∈ (iterNode (Node.mapping t) []).filter
      (fun pr => pr.1 = name) := by
    rw [List.mem_filter]
    exact ⟨hmq, by simp⟩
  rw [hz, List.mem_singleton] at hmpf hmqf
  have heq := hmpf.trans hmqf.symm
  exact congrArg Prod.snd heq

/-- C5 counterexample: the index already holds "n" in bucket "a";
`add_object(["b"], "n")` succeeds, yet `find_object("n")` returns the
earlier path ["a"] (first hit in traversal order), not the path just
added. -/
theorem C5_counterexample :
    addObject "/" (PathArg.seq ["b"]) "n" false [("a", Node.bucket ["n"])] =
      .ok (true, [("a", Node.bucket ["n"]), ("b", Node.bucket ["n"])]) ∧
    findObject "n" [("a", Node.bucket ["n"]), ("b", Node.bucket ["n"])] =
      some ["a"] ∧
    (["a"] : List String) ≠ ["b"] :=
  ⟨by rfl, by rfl, by decide⟩

/-- C5 amended: when the name is not yet stored anywhere in the index,
`addObject(path, name)` succeeds and a subsequent `findObject(name)`
returns exactly the normalized path — the fresh occurrence is the only
one, hence the first the traversal meets. -/
theorem C5_add_then_find {sep : String} {parg : PathArg} {name : String}
    {dup : Bool} {t : Tree} {r : Bool} {t' : Tree} {p : List String}
    (hwf : treeWF t = true)
    (habsent : cntEntries name t = 0)
    (hnorm : normalizePath sep parg = .ok p)
    (h : addObject sep parg name dup t = .ok (r, t')) :
    r = true ∧ findObject name t' = some p := by
  obtain ⟨p2, b, hnorm2, he, hiff⟩ := addObject_ok h
  rw [hnorm] at hnorm2
  injection hnorm2 with hp2
  subst hp2
  have hble := ensure_cnt_le he name
  have hnotmem : name ∉ b := by
    intro hmem
    have := List.count_pos_iff.mpr hmem
    omega
  have hr : r = true := hiff.mpr (fun hc => hnotmem hc.2)
  have hmut : addMut name dup b = b ++ [name] := by
    simp only [addMut]
    rw [if_neg (fun hc => hnotmem hc.2)]
  have hafter := ensure_walk_after he
  rw [hmut] at hafter
  have hcnt := ensure_cnt he name
  rw [hmut] at hcnt
  have hbz : b.count name = 0 := List.count_eq_zero.mpr hnotmem
  have happ : (b ++ [name]).count name = 1 := by
    simp [List.count_append, hbz]
  have hcnt1 : cntEntries name t' = 1 := by omega
  have hmemapp : name ∈ b ++ [name] := by simp
  have hiter :=
    @walk_mem_iter name p (b ++ [name]) (Node.mapping t') [] hafter hmemapp
  simp only [List.nil_append] at hiter
  -- find? succeeds and must return a pair whose bucket also holds `name`
  cases hfind : findObject name t' with
  | none =>
    exfalso
    simp only [findObject, Option.map_eq_none'] at hfind
    have := List.find?_eq_none.mp hfind (name, p) hiter
    simp at this
  | some q =>
    have hwf' : treeWF t' = true := ensure_WF hwf he
    obtain ⟨bq, hwq, hbq⟩ := findObject_some hwf' hfind
    have := cnt_one_same_path hcnt1 hafter hmemapp hwq hbq
    exact ⟨hr, by rw [this]⟩

theorem C5_witness :
    treeWF ([] : Tree) = true ∧
    cntEntries "n" ([] : Tree) = 0 ∧
    normalizePath "/" (PathArg.seq ["a", "b"]) = .ok ["a", "b"] ∧
    addObject "/" (PathArg.seq ["a", "b"]) "n" false ([] : Tree) =
      .ok (true, [("a", Node.mapping [("b", Node.bucket ["n"])])]) ∧
    (true = true ∧
      findObject "n" [("a", Node.mapping [("b", Node.bucket ["n"])])] =
        some ["a", "b"]) := by
  have happ := @C5_add_then_find "/" (PathArg.seq ["a", "b"]) "n" false
    ([] : Tree) true [("a", Node.mapping [("b", Node.bucket ["n"])])]
    ["a", "b"] (by rfl) (by rfl) (by rfl) (by rfl)
  exact ⟨by rfl, by rfl, by rfl, by rfl, happ⟩

/-- C4 counterexample: "x" is stored in the two buckets "a" and "b";
`move_object("x", ["c"])` succeeds but removes only the first occurrence:
the bucket "b" it previously occupied still holds "x" after the move. -/
theorem C4_counterexample :
    moveObject "/" "x" (PathArg.seq ["c"]) none false
        [("a", Node.bucket ["x"]), ("b", Node.bucket ["x"])] =
      .ok (true, [("b", Node.bucket ["x"]), ("c", Node.bucket ["x"])]) ∧
    walkT [("b", Node.bucket ["x"]), ("c", Node.bucket ["x"])] ["b"] =
      .ok (.bucket ["x"]) ∧
    "x" ∈ ["x"] :=
  ⟨by rfl, by rfl, by decide⟩

/-- C4 amended: when the name occurs exactly once in the whole index, a
successful `moveObject(name, newPath)` with duplicates disallowed leaves
the name present exactly once in the bucket at `newPath` and nowhere else
(the total occurrence count stays one). -/
theorem C4_move_unique {sep name : String} {newPath : PathArg}
    {t t2 : Tree} {np : List String}
    (hwf : treeWF t = true)
    (hunique : cntEntries name t = 1)
    (hnorm : normalizePath sep newPath = .ok np)
    (h : moveObject sep name newPath none false t = .ok (true, t2)) :
    ∃ b2, walkT t2 np = .ok (.bucket b2) ∧ b2.count name = 1 ∧
      cntEntries name t2 = 1 ∧
      (∀ q bq, walkT t2 q = .ok (.bucket bq) → name ∈ bq → q = np) := by
  simp only [moveObject] at h
  split at h
  · simp at h
  · simp at h
  · rename_i t1 hrm
    split at h
    · simp at h
    · rename_i pr rb t2x hadd
      simp only [Except.ok.injEq, Prod.mk.injEq, true_and] at h
      subst h
      obtain ⟨hc1, hwf1⟩ := removeObject_cnt_WF hwf hrm
      have hz : cntEntries name t1 = 0 := by omega
      obtain ⟨p2, b, hnorm2, he, hiff⟩ := addObject_ok hadd
      rw [hnorm] at hnorm2
      injection hnorm2 with hp2
      subst hp2
      have hble := ensure_cnt_le he name
      have hnotmem : name ∉ b := by
        intro hmem
        have := List.count_pos_iff.mpr hmem
        omega
      have hmut : addMut name false b = b ++ [name] := by
        simp only [addMut]
        rw [if_neg (fun hc => hnotmem hc.2)]
      have hafter := ensure_walk_after he
      rw [hmut] at hafter
      have hcnt := ensure_cnt he name
      rw [hmut] at hcnt
      have hbz : b.count name = 0 := List.count_eq_zero.mpr hnotmem
      have happ : (b ++ [name]).count name = 1 := by
        simp [List.count_append, hbz]
      have hcnt1 : cntEntries name t2x = 1 := by omega
      refine ⟨b ++ [name], hafter, happ, hcnt1, ?_⟩
      intro q bq hwq hbq
      exact cnt_one_same_path hcnt1 hwq hbq hafter (by simp)

theorem C4_witness :
    treeWF [("a", Node.bucket ["x"]), ("b", Node.bucket ["y"])] = true ∧
    cntEntries "x" [("a", Node.bucket ["x"]), ("b", Node.bucket ["y"])] = 1 ∧
    normalizePath "/" (PathArg.seq ["c"]) = .ok ["c"] ∧
    moveObject "/" "x" (PathArg.seq ["c"]) none false
        [("a", Node.bucket ["x"]), ("b", Node.bucket ["y"])] =
      .ok (true, [("b", Node.bucket ["y"]), ("c", Node.bucket ["x"])]) ∧
    (∃ b2,
      walkT [("b", Node.bucket ["y"]), ("c", Node.bucket ["x"])] ["c"] =
        .ok (.bucket b2) ∧
      b2.count "x" = 1 ∧
      cntEntries "x" [("b", Node.bucket ["y"]), ("c", Node.bucket ["x"])] = 1 ∧
      (∀ q bq,
        walkT [("b", Node.bucket ["y"]), ("c", Node.bucket ["x"])] q =
          .ok (.bucket bq) → "x" ∈ bq → q = ["c"])) := by
  have happ := @C4_move_unique "/" "x" (PathArg.seq ["c"])
    [("a", Node.bucket ["x"]), ("b", Node.bucket ["y"])]
    [("b", Node.bucket ["y"]), ("c", Node.bucket ["x"])] ["c"]
    (by rfl) (by rfl) (by rfl) (by rfl)
  exact ⟨by rfl, by rfl, by rfl, by rfl, happ⟩


/-! ## ProcessGraph lemmas -/

theorem alistFind_append {α : Type} (k : String)
    (l1 l2 : List (String × α)) :
    alistFind k (l1 ++ l2) =
      match alistFind k l1 with
      | some v => some v
      | none => alistFind k l2 := by
  induction l1 with
  | nil => simp [alistFind]
  | cons hd tl ih =>
    obtain ⟨k0, v0⟩ := hd
    by_cases hk : k0 = k
    · simp [alistFind, hk]
    · simp [alistFind, hk, ih]

theorem mem_insertS {x y : String} {s : List String} :
    x ∈ insertS y s ↔ x = y ∨ x ∈ s := by
  simp only [insertS]
  split
  · rename_i hy
    constructor
    · exact Or.inr
    · rintro (rfl | hx)
      · exact hy
      · exact hx
  · simp [or_comm]

theorem nodup_insertS {y : String} {s : List String} (h : s.Nodup) :
    (insertS y s).Nodup := by
  simp only [insertS]
  split
  · exact h
  · rename_i hy
    simp [List.nodup_append, h, hy]

theorem mem_unionS {x : String} {base adds : List String} :
    x ∈ unionS base adds ↔ x ∈ base ∨ x ∈ adds := by
  induction adds generalizing base with
  | nil => simp [unionS]
  | cons a l ih =>
    have hstep : unionS base (a :: l) = unionS (insertS a base) l := rfl
    rw [hstep, ih, mem_insertS, List.mem_cons]
    tauto

theorem nodup_unionS {base adds : List String} (h : base.Nodup) :
    (unionS base adds).Nodup := by
  induction adds generalizing base with
  | nil => exact h
  | cons a l ih =>
    have hstep : unionS base (a :: l) = unionS (insertS a base) l := rfl
    rw [hstep]
    exact ih (nodup_insertS h)

/-- The transformation the incoming-edge loop of `update_step` applies to
one successor set (recall that the source guard is always true). -/
def rstep (old new : String) (ns : List String) : List String :=
  if old ∈ ns then insertS new (ns.erase old) else ns

/-- The collapse map of the rename: `old` becomes `new`, everything else
is unchanged. -/
def renameTo (old new x : String) : String := if x = old then new else x

theorem mem_rstep {old new x : String} {ns : List String} (h : ns.Nodup) :
    x ∈ rstep old new ns ↔ (x ∈ ns ∧ x ≠ old) ∨ (x = new ∧ old ∈ ns) := by
  simp only [rstep]
  split
  · rename_i hold
    rw [mem_insertS]
    rw [List.Nodup.mem_erase_iff h]
    constructor
    · rintro (rfl | ⟨hne, hx⟩)
      · exact Or.inr ⟨rfl, hold⟩
      · exact Or.inl ⟨hx, hne⟩
    · rintro (⟨hx, hne⟩ | ⟨rfl, -⟩)
      · exact Or.inr ⟨hne, hx⟩
      · exact Or.inl rfl
  · rename_i hold
    constructor
    · intro hx
      exact Or.inl ⟨hx, fun hh => hold (hh ▸ hx)⟩
    · rintro (⟨hx, -⟩ | ⟨rfl, hc⟩)
      · exact hx
      · exact absurd hc hold

theorem alistFind_mapStep (old new : String) (g : Graph) (k : String) :
    alistFind k (g.map (fun kv =>
        if old ∈ kv.2 then (kv.1, insertS new (kv.2.erase old)) else kv)) =
      (alistFind k g).map (rstep old new) := by
  induction g with
  | nil => simp [alistFind]
  | cons hd tl ih =>
    obtain ⟨k0, ns0⟩ := hd
    rw [List.map_cons]
    have hhd : (if old ∈ ((k0, ns0) : String × List String).2
        then (((k0, ns0) : String × List String).1,
          insertS new (((k0, ns0) : String × List String).2.erase old))
        else ((k0, ns0) : String × List String)) = (k0, rstep old new ns0) := by
      by_cases hmem : old ∈ ns0
      · simp [rstep, hmem]
      · simp [rstep, hmem]
    rw [hhd]
    by_cases hk : k0 = k
    · subst hk
      simp [alistFind]
    · simp [alistFind, hk, ih]


theorem alistFind_isSome_of_mem_keys {α : Type} {k : String}
    {m : List (String × α)} (h : k ∈ m.map Prod.fst) :
    (alistFind k m).isSome = true := by
  induction m with
  | nil => simp at h
  | cons hd tl ih =>
    obtain ⟨k0, v0⟩ := hd
    by_cases hk : k0 = k
    · simp [alistFind, hk]
    · simp only [List.map_cons, List.mem_cons] at h
      rcases h with h | h
    
      · exact absurd h.symm hk
      · simp only [alistFind, if_neg hk]
        exact ih h

theorem find_addStep_self (g : Graph) (new : String) :
    alistFind new (addStep g new) = some ((alistFind new g).getD []) := by
  cases hf : alistFind new g with
  | some ns =>
    have hg : addStep g new = g := by simp [addStep, hf]
    rw [hg, hf]
    rfl
  | none =>
    have hg : addStep g new = g ++ [(new, [])] := by simp [addStep, hf]
    rw [hg, alistFind_append, hf]
    simp [alistFind]

theorem find_addStep_ne {s new : String} (g : Graph) (h : s ≠ new) :
    alistFind s (addStep g new) = alistFind s g := by
  simp only [addStep]
  split
  · rfl
  · rw [alistFind_append]
    cases hf : alistFind s g with
    | some ns => simp
    | none => simp [alistFind, Ne.symm h]

theorem keys_addStep_nodup {g : Graph} (new : String)
    (h : (g.map Prod.fst).Nodup) :
    ((addStep g new).map Prod.fst).Nodup := by
  simp only [addStep]
  split
  · exact h
  · rename_i habs
    have hnk : new ∉ g.map Prod.fst := by
      intro hmem
      exact habs (alistFind_isSome_of_mem_keys hmem)
    simp [List.nodup_append, h, hnk]

theorem updateStep_find {g : Graph} {old new : String} {oldSucc : List String}
    (hkeys : (g.map Prod.fst).Nodup)
    (hold : alistFind old g = some oldSucc) (hne : old ≠ new) (s : String) :
    alistFind s (updateStep g old new) =
      if s = old then none
      else if s = new then
        some (rstep old new
          (unionS ((alistFind new g).getD [])
            (oldSucc.filter (fun x => x ≠ new))))
      else (alistFind s g).map (rstep old new) := by
  have hnecond : ¬(old = new ∨ (alistFind old g).isNone = true) := by
    push_neg
    exact ⟨hne, by simp [hold]⟩
  have h1old : alistFind old (addStep g new) = some oldSucc := by
    rw [find_addStep_ne g hne]
    exact hold
  have h1keys := keys_addStep_nodup new hkeys
  have h2old : alistFind old (alistErase old (addStep g new)) = none :=
    alistFind_eraseKey_self h1keys
  have h2new : alistFind new (alistErase old (addStep g new)) =
      some ((alistFind new g).getD []) := by
    rw [alistFind_eraseKey_ne _ (Ne.symm hne)]
    exact find_addStep_self g new
  simp only [updateStep]
  rw [if_neg hnecond]
  rw [alistFind_mapStep]
  rw [h1old, h2new]
  simp only [Option.getD_some]
  by_cases hs : s = old
  · subst hs
    rw [if_pos rfl]
    rw [alistFind_setKey_ne _ _ hne, h2old]
    rfl
  · rw [if_neg hs]
    by_cases hsn : s = new
    · subst hsn
      rw [if_pos rfl, alistFind_setKey_self]
      rfl
    · rw [if_neg hsn, alistFind_setKey_ne _ _ hsn,
        alistFind_eraseKey_ne _ hs, find_addStep_ne g hsn]

theorem rename_mem_rstep {old new x : String} {ns : List String}
    (h : ns.Nodup) (hx : x ∈ ns) :
    renameTo old new x ∈ rstep old new ns := by
  rw [mem_rstep h]
  by_cases hxo : x = old
  · subst hxo
    exact Or.inr ⟨by simp [renameTo], hx⟩
  · refine Or.inl ⟨?_, ?_⟩
    · simp only [renameTo, if_neg hxo]
      exact hx
    · simp only [renameTo, if_neg hxo]
      exact hxo

/-- C3 counterexample: on the graph a→b, `updateStep("a","b")` drops the
edge entirely (it would become the self-loop b→b, which the outgoing-edge
merge excludes): the former successor set of "a" is not preserved under
"b"'s name, so an edge touching `old` is lost. -/
theorem C3_counterexample :
    updateStep [("a", ["b"]), ("b", [])] "a" "b" = [("b", [])] ∧
    edgeG [("a", ["b"]), ("b", [])] "a" "b" ∧
    ¬edgeG (updateStep [("a", ["b"]), ("b", [])] "a" "b") "b" "b" := by
  have h : updateStep [("a", ["b"]), ("b", [])] "a" "b" = [("b", [])] := by rfl
  refine ⟨h, ⟨["b"], rfl, by simp⟩, ?_⟩
  rw [h]
  rintro ⟨ns, hns, hmem⟩
  simp [alistFind] at hns
  subst hns
  simp at hmem

/-- C3 amended: for every well-formed graph with `old` present,
`old ≠ new`, and `new` not among `old`'s successors, `updateStep`
re-points every edge touching `old` to `new` under the collapse map
(old ↦ new): every edge of the old graph survives renamed, every edge of
the new graph is the rename of an old edge (none lost, none invented,
set semantics preclude duplicates), and no step key or successor set
still references `old`.  (When `new` is a successor of `old`, that edge
is dropped — see the counterexample.) -/
theorem C3_update_step_repoints {g : Graph} {old new : String}
    {oldSucc : List String}
    (hwf : GraphWF g)
    (hold : alistFind old g = some oldSucc)
    (hne : old ≠ new)
    (hnoedge : new ∉ oldSucc) :
    alistFind old (updateStep g old new) = none ∧
    (∀ a ns, alistFind a (updateStep g old new) = some ns → old ∉ ns) ∧
    (∀ a b0, edgeG g a b0 →
      edgeG (updateStep g old new) (renameTo old new a) (renameTo old new b0)) ∧
    (∀ a bb, edgeG (updateStep g old new) a bb →
      ∃ a0 b0, edgeG g a0 b0 ∧ a = renameTo old new a0 ∧
        bb = renameTo old new b0) := by
  obtain ⟨hkeys, hvals⟩ := hwf
  have F := updateStep_find hkeys hold hne
  set newS0 : List String := (alistFind new g).getD [] with hnewS0
  set u : List String :=
    unionS newS0 (oldSucc.filter (fun x => x ≠ new)) with hu
  have hnewS0nodup : newS0.Nodup := by
    rw [hnewS0]
    cases hf : alistFind new g with
    | none => simp
    | some ns =>
      simp only [Option.getD_some]
      exact hvals _ (alistFind_mem hf)
  have hunodup : u.Nodup := nodup_unionS hnewS0nodup
  have hfound_nodup : ∀ {a ns}, alistFind a g = some ns → ns.Nodup :=
    fun hf => hvals _ (alistFind_mem hf)
  have holdSucc_nodup : oldSucc.Nodup := hfound_nodup hold
  have hsub_old : ∀ x ∈ oldSucc, x ∈ u := by
    intro x hx
    rw [hu, mem_unionS]
    refine Or.inr ?_
    rw [List.mem_filter]
    refine ⟨hx, ?_⟩
    simp only [decide_eq_true_eq]
    intro hxn
    exact hnoedge (hxn ▸ hx)
  have hsub_new : ∀ x ∈ newS0, x ∈ u := by
    intro x hx
    rw [hu, mem_unionS]
    exact Or.inl hx
  have hmem_newS0 : ∀ {x}, x ∈ newS0 ↔ edgeG g new x := by
    intro x
    rw [hnewS0]
    cases hf : alistFind new g with
    | none =>
      simp only [Option.getD_none, List.not_mem_nil, false_iff]
      rintro ⟨ns, hns, -⟩
      rw [hf] at hns
      exact absurd hns (by simp)
    | some ns =>
      simp only [Option.getD_some]
      constructor
      · intro hx
        exact ⟨ns, hf, hx⟩
      · rintro ⟨ns2, hns2, hx⟩
        rw [hf] at hns2
        injection hns2 with hns2
        subst hns2
        exact hx
  refine ⟨?_, ?_, ?_, ?_⟩
  · rw [F old, if_pos rfl]
  · intro a ns hns
    rw [F a] at hns
    by_cases ha : a = old
    · rw [if_pos ha] at hns
      exact absurd hns (by simp)
    · rw [if_neg ha] at hns
      by_cases han : a = new
      · rw [if_pos han] at hns
        injection hns with hns
        subst hns
        rw [mem_rstep hunodup]
        rintro (⟨-, hoo⟩ | ⟨hon, -⟩)
        · exact hoo rfl
        · exact hne hon
      · rw [if_neg han] at hns
        cases hf : alistFind a g with
        | none => rw [hf] at hns; exact absurd hns (by simp)
        | some ns0 =>
          rw [hf] at hns
          simp only [Option.map_some'] at hns
          injection hns with hns
          subst hns
          rw [mem_rstep (hfound_nodup hf)]
          rintro (⟨-, hoo⟩ | ⟨hon, -⟩)
          · exact hoo rfl
          · exact hne hon
  · rintro a b0 ⟨ns0, hns0, hb0⟩
    by_cases ha : a = old
    · rw [ha] at hns0 ⊢
      rw [hold] at hns0
      injection hns0 with hns0
      subst hns0
      refine ⟨rstep old new u, ?_, ?_⟩
      · rw [F (renameTo old new old)]
        have hro : renameTo old new old = new := by simp [renameTo]
        rw [hro, if_neg (Ne.symm hne), if_pos rfl]
      · exact rename_mem_rstep hunodup (hsub_old b0 hb0)
    · refine ⟨rstep old new (if a = new then u else ns0), ?_, ?_⟩
      · have hra : renameTo old new a = a := by simp [renameTo, ha]
        rw [F (renameTo old new a), hra, if_neg ha]
        by_cases han : a = new
        · simp only [if_pos han]
        · simp only [if_neg han]
          rw [hns0]
          rfl
      · by_cases han : a = new
        · rw [if_pos han]
          subst han
          refine rename_mem_rstep hunodup (hsub_new b0 ?_)
          exact hmem_newS0.mpr ⟨ns0, hns0, hb0⟩
        · rw [if_neg han]
          exact rename_mem_rstep (hfound_nodup hns0) hb0
  · intro a bb hedge
    obtain ⟨ns, hns, hbb⟩ := hedge
    rw [F a] at hns
    by_cases ha : a = old
    · rw [if_pos ha] at hns
      exact absurd hns (by simp)
    · rw [if_neg ha] at hns
      by_cases han : a = new
      · subst han
        rw [if_pos rfl] at hns
        injection hns with hns
        subst hns
        rw [mem_rstep hunodup] at hbb
        rcases hbb with ⟨hbu, hbo⟩ | ⟨hbnew, hou⟩
        · rw [hu, mem_unionS] at hbu
          rcases hbu with hbn | hbf
          · exact ⟨a, bb, hmem_newS0.mp hbn,
              by simp [renameTo, ha], by simp [renameTo, hbo]⟩
          · rw [List.mem_filter] at hbf
            exact ⟨old, bb, ⟨oldSucc, hold, hbf.1⟩,
              by simp [renameTo], by simp [renameTo, hbo]⟩
        · rw [hu, mem_unionS] at hou
          rcases hou with hon | hof
          · refine ⟨a, old, hmem_newS0.mp hon,
              by simp [renameTo, ha], ?_⟩
            rw [hbnew]
            simp [renameTo]
          · rw [List.mem_filter] at hof
            refine ⟨old, old, ⟨oldSucc, hold, hof.1⟩,
              by simp [renameTo], ?_⟩
            rw [hbnew]
            simp [renameTo]
      · rw [if_neg han] at hns
        cases hf : alistFind a g with
        | none => rw [hf] at hns; exact absurd hns (by simp)
        | some ns0 =>
          rw [hf] at hns
          simp only [Option.map_some'] at hns
          injection hns with hns
          subst hns
          rw [mem_rstep (hfound_nodup hf)] at hbb
          rcases hbb with ⟨hbn, hbo⟩ | ⟨rfl, hoin⟩
          · exact ⟨a, bb, ⟨ns0, hf, hbn⟩,
              by simp [renameTo, ha], by simp [renameTo, hbo]⟩
          · exact ⟨a, old, ⟨ns0, hf, hoin⟩,
              by simp [renameTo, ha], by simp [renameTo]⟩

theorem C3_witness :
    GraphWF [("a", ["c"]), ("c", [])] ∧
    alistFind "a" [("a", ["c"]), ("c", [])] = some ["c"] ∧
    "a" ≠ "b" ∧
    "b" ∉ ["c"] ∧
    (alistFind "a" (updateStep [("a", ["c"]), ("c", [])] "a" "b") = none ∧
      (∀ a ns, alistFind a (updateStep [("a", ["c"]), ("c", [])] "a" "b") =
        some ns → "a" ∉ ns) ∧
      (∀ a b0, edgeG [("a", ["c"]), ("c", [])] a b0 →
        edgeG (updateStep [("a", ["c"]), ("c", [])] "a" "b")
          (renameTo "a" "b" a) (renameTo "a" "b" b0)) ∧
      (∀ a bb, edgeG (updateStep [("a", ["c"]), ("c", [])] "a" "b") a bb →
        ∃ a0 b0, edgeG [("a", ["c"]), ("c", [])] a0 b0 ∧
          a = renameTo "a" "b" a0 ∧ bb = renameTo "a" "b" b0)) := by
  have happ := @C3_update_step_repoints [("a", ["c"]), ("c", [])] "a" "b"
    ["c"] (by decide) (by rfl) (by decide) (by decide)
  exact ⟨by decide, by rfl, by decide, by decide, happ⟩


end Guide
